import Mathlib

/-!
Verification of the `zotero2readwise` sources (`helper.py`, `readwise.py`).

Python strings are embedded as `List Char`; every function below is a direct
translation of the corresponding Python source (regular-expression
substitutions become explicit scanning automata or calls to a small
backtracking matching engine; stateful scans become explicit state passing).
Line references point into the repository sources.
-/

set_option maxRecDepth 10000

/-! ## Basic Python string primitives -/

/-- The whitespace characters recognised by Python's `str.strip`, `str.isspace`
and the regex class `\s` (the ASCII part plus the latin-1/Unicode spaces). -/
def isPyWs (c : Char) : Bool :=
  c = ' ' || c = '\t' || c = '\n' || c = '\r' || c = '\x0b' || c = '\x0c' ||
  c = '\x1c' || c = '\x1d' || c = '\x1e' || c = '\x1f' || c = '\x85' ||
  c = '\xa0' || c = Char.ofNat 0x1680 ||
  (Nat.ble 0x2000 c.toNat && Nat.ble c.toNat 0x200a) ||
  c = Char.ofNat 0x2028 || c = Char.ofNat 0x2029 || c = Char.ofNat 0x202f ||
  c = Char.ofNat 0x205f || c = Char.ofNat 0x3000

/-- `beginsWith p l` holds when the word `p` is an initial segment of `l`
(Python `str.startswith`). -/
def beginsWith : List Char → List Char → Bool
  | [], _ => true
  | _ :: _, [] => false
  | p :: ps, c :: cs => p = c && beginsWith ps cs

/-- `containsSub p l` holds when the word `p` occurs contiguously inside `l`
(Python's `p in l` for strings). -/
def containsSub (p : List Char) : List Char → Bool
  | [] => beginsWith p []
  | c :: cs => beginsWith p (c :: cs) || containsSub p cs

/-- Python `str.lstrip()`. -/
def pyLStrip (l : List Char) : List Char := l.dropWhile isPyWs

/-- Python `str.rstrip()`. -/
def pyRStrip : List Char → List Char
  | [] => []
  | c :: rest =>
    let r := pyRStrip rest
    if r = [] ∧ isPyWs c then [] else c :: r

/-- Python `str.strip()`. -/
def pyStrip (l : List Char) : List Char := pyRStrip (pyLStrip l)

/-! ## The whitespace / blank-line normalisation automata

Each of the following functions is the exact effect of one of the literal
`re.sub` rewrites in `html_to_markdown` (helper.py lines 163-167 and
285-295); `re.sub` scans left to right, replaces each non-overlapping match
and resumes scanning immediately after the replaced text. -/

/-- helper.py line 163, `re.sub(r'\n\x7b3,\x7d', '\n\n', content)` (and the
semantically identical line 285, `re.sub(r'\n\n\n+', '\n\n', content)`):
every maximal run of three or more newlines becomes exactly two.  The
accumulator `k` counts the newlines of the current run already emitted,
capped at two. -/
def collapseNLAux : Nat → List Char → List Char
  | _, [] => []
  | k, c :: rest =>
    if c = '\n' then
      if 2 ≤ k then collapseNLAux k rest
      else '\n' :: collapseNLAux (k + 1) rest
    else c :: collapseNLAux 0 rest

def collapseNL (l : List Char) : List Char := collapseNLAux 0 l

/-- helper.py line 166, `re.sub(r' \x7b2,\x7d', ' ', content)`: every maximal
run of two or more spaces becomes one.  The flag records whether the
previously emitted character was a space. -/
def collapseSpAux : Bool → List Char → List Char
  | _, [] => []
  | b, c :: rest =>
    if c = ' ' then
      if b then collapseSpAux true rest
      else ' ' :: collapseSpAux true rest
    else c :: collapseSpAux false rest

def collapseSp (l : List Char) : List Char := collapseSpAux false l

/-- helper.py line 167, `re.sub(r'\n +', '\n', content)`: all spaces directly
following a newline are removed.  The flag records whether we are inside the
removable space run following a newline. -/
def dropNLSpAux : Bool → List Char → List Char
  | _, [] => []
  | b, c :: rest =>
    if b ∧ c = ' ' then dropNLSpAux true rest
    else c :: dropNLSpAux (c = '\n') rest

def dropNLSp (l : List Char) : List Char := dropNLSpAux false l

/-- helper.py line 288, `re.sub(r'\n\n- ', '\n- ', content)`: a blank line
directly before a `- ` list item is removed. -/
def fixListGap : List Char → List Char
  | '\n' :: '\n' :: '-' :: ' ' :: rest => '\n' :: '-' :: ' ' :: fixListGap rest
  | c :: rest => c :: fixListGap rest
  | [] => []

/-- helper.py line 289, `re.sub(r'\n\n\n', '\n\n', content)`: each
non-overlapping literal triple of newlines becomes a pair. -/
def collapseTriple : List Char → List Char
  | '\n' :: '\n' :: '\n' :: rest => '\n' :: '\n' :: collapseTriple rest
  | c :: rest => c :: collapseTriple rest
  | [] => []

/-- helper.py line 292, `re.sub(r'\n- \n\n- ', '\n- \n- ', content)`. -/
def fixEmptyItems : List Char → List Char
  | '\n' :: '-' :: ' ' :: '\n' :: '\n' :: '-' :: ' ' :: rest =>
    '\n' :: '-' :: ' ' :: '\n' :: '-' :: ' ' :: fixEmptyItems rest
  | c :: rest => c :: fixEmptyItems rest
  | [] => []

/-- Parser for the `#+\s` part of the pattern in helper.py line 295: a
nonempty run of `#` followed by one whitespace character.  (Regex
backtracking over `#+\s` is irrelevant: shrinking the greedy `#+` leaves a
`#` where `\s` is required, which also fails.) -/
def hpParse (l : List Char) : Option (List Char × Char × List Char) :=
  let hs := l.takeWhile (fun c => c = '#')
  match l.dropWhile (fun c => c = '#') with
  | w :: rest => if hs ≠ [] ∧ isPyWs w then some (hs, w, rest) else none
  | [] => none

/-- helper.py line 295, `re.sub(r'([^\n])\n(#+\s)', r'\1\n\n\2', content)`:
insert a blank line between a non-newline character and a following heading
line.  Scanning resumes after each match, so the whitespace character
consumed by `#+\s` is not available to start the next match.  The fuel is
`length + 1`; every recursive call consumes at least one input character, so
it never runs out. -/
def insertBlankAux : Nat → List Char → List Char
  | 0, l => l
  | _ + 1, [] => []
  | fuel + 1, c :: rest =>
    if c = '\n' then c :: insertBlankAux fuel rest
    else
      match rest with
      | d :: rest2 =>
        if d = '\n' then
          match hpParse rest2 with
          | some (hs, w, rest3) =>
            c :: '\n' :: '\n' :: (hs ++ w :: insertBlankAux fuel rest3)
          | none => c :: insertBlankAux fuel rest
        else c :: insertBlankAux fuel rest
      | [] => c :: insertBlankAux fuel rest

def insertBlankHeading (l : List Char) : List Char :=
  insertBlankAux (l.length + 1) l

/-- The final clean-up pass of `html_to_markdown`: the composition of the
whitespace normalisation rewrites of helper.py lines 163, 166, 167 with the
final-polish rewrites of lines 285, 288, 289, 292, 295 and the closing
`content.strip()` of line 298. -/
def post_process (l : List Char) : List Char :=
  pyStrip (insertBlankHeading (fixEmptyItems (collapseTriple (fixListGap
    (collapseNL (dropNLSp (collapseSp (collapseNL l))))))))

/-! ## Substring occurrence: basic lemmas -/

theorem beginsWith_nil_pat (l : List Char) : beginsWith [] l = true := by
  cases l <;> rfl

theorem beginsWith_cons_cons (p c : Char) (ps cs : List Char) :
    beginsWith (p :: ps) (c :: cs) = (p = c && beginsWith ps cs) := rfl

theorem containsSub_nil_pat (l : List Char) : containsSub [] l = true := by
  cases l <;> simp [containsSub, beginsWith_nil_pat]

theorem containsSub_cons (p : List Char) (c : Char) (l : List Char) :
    containsSub p (c :: l) = (beginsWith p (c :: l) || containsSub p l) := rfl

theorem containsSub_of_tail {p : List Char} {l : List Char} (c : Char)
    (h : containsSub p l = true) : containsSub p (c :: l) = true := by
  simp [containsSub_cons, h]

theorem tail_of_not_containsSub {p : List Char} {c : Char} {l : List Char}
    (h : containsSub p (c :: l) = false) : containsSub p l = false := by
  by_contra hc
  simp only [Bool.not_eq_false] at hc
  simp [containsSub_of_tail c hc] at h

theorem bw_of_not_containsSub {p : List Char} {c : Char} {l : List Char}
    (h : containsSub p (c :: l) = false) : beginsWith p (c :: l) = false := by
  by_contra hb
  simp only [Bool.not_eq_false] at hb
  simp [containsSub_cons, hb] at h

theorem containsSub_of_bw {p l : List Char} (h : beginsWith p l = true) :
    containsSub p l = true := by
  cases l with
  | nil => exact h
  | cons c cs => simp [containsSub_cons, h]

theorem bw_false_of_nil_src {p : Char} {ps : List Char} :
    beginsWith (p :: ps) [] = false := rfl

theorem beginsWith_append {p u : List Char} (v : List Char)
    (h : beginsWith p u = true) : beginsWith p (u ++ v) = true := by
  induction p generalizing u with
  | nil => exact beginsWith_nil_pat _
  | cons x xs ih =>
    cases u with
    | nil => exact absurd h (by simp [bw_false_of_nil_src])
    | cons c cs =>
      simp only [beginsWith_cons_cons, Bool.and_eq_true, decide_eq_true_eq] at h
      simpa [beginsWith_cons_cons, h.1] using ih h.2

theorem bw_iff_append {p l : List Char} :
    beginsWith p l = true ↔ ∃ t, l = p ++ t := by
  induction p generalizing l with
  | nil => simp [beginsWith_nil_pat]
  | cons x xs ih =>
    cases l with
    | nil => simp [bw_false_of_nil_src]
    | cons c cs =>
      rw [beginsWith_cons_cons]
      simp only [Bool.and_eq_true, decide_eq_true_eq, List.cons_append,
        List.cons.injEq, ih]
      constructor
      · rintro ⟨rfl, t, rfl⟩; exact ⟨t, rfl, rfl⟩
      · rintro ⟨t, rfl, rfl⟩; exact ⟨rfl, t, rfl⟩

theorem bw_of_bw_append {p q l : List Char}
    (h : beginsWith (p ++ q) l = true) : beginsWith p l = true := by
  obtain ⟨t, rfl⟩ := bw_iff_append.mp h
  rw [List.append_assoc]
  exact bw_iff_append.mpr ⟨q ++ t, rfl⟩

theorem containsSub_append_left {p u : List Char} (v : List Char)
    (h : containsSub p u = true) : containsSub p (u ++ v) = true := by
  induction u with
  | nil =>
    have : p = [] := by
      cases p with
      | nil => rfl
      | cons x xs => exact absurd h (by simp [containsSub, bw_false_of_nil_src])
    simp [this, containsSub_nil_pat]
  | cons c cs ih =>
    rcases Bool.or_eq_true_iff.mp ((containsSub_cons p c cs) ▸ h) with hb | ht
    · exact containsSub_of_bw (by simpa using beginsWith_append v hb)
    · exact containsSub_of_tail c (ih ht)

/-! ## Leading newline runs -/

def leadNL (l : List Char) : Nat := (l.takeWhile (fun c => c = '\n')).length

theorem leadNL_nil : leadNL [] = 0 := rfl

theorem leadNL_cons (c : Char) (l : List Char) :
    leadNL (c :: l) = if c = '\n' then leadNL l + 1 else 0 := by
  by_cases h : c = '\n' <;> simp [leadNL, List.takeWhile_cons, h]

theorem bw_one_iff (x : Char) (l : List Char) :
    beginsWith [x] l = true ↔ ∃ t, l = x :: t := by
  cases l with
  | nil => simp [bw_false_of_nil_src]
  | cons c cs =>
    simp only [beginsWith_cons_cons, beginsWith_nil_pat, Bool.and_true,
      decide_eq_true_eq, List.cons.injEq]
    constructor
    · rintro rfl; exact ⟨cs, rfl, rfl⟩
    · rintro ⟨t, rfl, rfl⟩; rfl

theorem bw_repl_nl (n : Nat) (l : List Char) :
    beginsWith (List.replicate n '\n') l = true ↔ n ≤ leadNL l := by
  induction n generalizing l with
  | zero => simp [beginsWith_nil_pat]
  | succ n ih =>
    cases l with
    | nil => simp [List.replicate_succ, bw_false_of_nil_src, leadNL_nil]
    | cons c cs =>
      rw [List.replicate_succ, beginsWith_cons_cons, leadNL_cons]
      by_cases hc : c = '\n'
      · subst hc
        simp [ih]
      · have hne : ¬('\n' = c) := fun h => hc h.symm
        simp [hne, hc]

theorem bw_nl2_iff (l : List Char) :
    beginsWith ['\n', '\n'] l = true ↔ 2 ≤ leadNL l := by
  simpa using bw_repl_nl 2 l

theorem bw_nl3_iff (l : List Char) :
    beginsWith ['\n', '\n', '\n'] l = true ↔ 3 ≤ leadNL l := by
  simpa using bw_repl_nl 3 l

/-! ## The four forbidden-substring invariants used by the clean-up pass -/

/-- No run of three or more newlines. -/
def noTriple (l : List Char) : Prop := containsSub ['\n', '\n', '\n'] l = false

/-- No run of two or more spaces. -/
def noDbl (l : List Char) : Prop := containsSub [' ', ' '] l = false

/-- No space directly after a newline. -/
def noNLSp (l : List Char) : Prop := containsSub ['\n', ' '] l = false

/-- No blank line directly before a list item. -/
def noGap (l : List Char) : Prop := containsSub ['\n', '\n', '-', ' '] l = false

theorem noTriple_nil : noTriple [] := rfl

theorem noTriple_cons_iff (c : Char) (l : List Char) :
    noTriple (c :: l) ↔ ¬(c = '\n' ∧ 2 ≤ leadNL l) ∧ noTriple l := by
  unfold noTriple
  rw [containsSub_cons]
  constructor
  · intro h
    have h1 : beginsWith ['\n', '\n', '\n'] (c :: l) = false := by
      revert h; cases beginsWith ['\n', '\n', '\n'] (c :: l) <;> simp
    have h2 : containsSub ['\n', '\n', '\n'] l = false := by
      revert h; cases containsSub ['\n', '\n', '\n'] l <;> simp
    refine ⟨?_, h2⟩
    rintro ⟨rfl, hl⟩
    rw [show beginsWith ['\n', '\n', '\n'] ('\n' :: l) =
      beginsWith ['\n', '\n'] l from by simp [beginsWith_cons_cons]] at h1
    rw [(bw_nl2_iff l).mpr hl] at h1
    exact Bool.noConfusion h1
  · rintro ⟨h1, h2⟩
    rw [h2, Bool.or_false]
    by_cases hc : c = '\n'
    · subst hc
      rw [show beginsWith ['\n', '\n', '\n'] ('\n' :: l) =
        beginsWith ['\n', '\n'] l from by simp [beginsWith_cons_cons]]
      by_contra hb
      simp only [Bool.not_eq_false] at hb
      exact h1 ⟨rfl, (bw_nl2_iff l).mp hb⟩
    · have hne : ¬('\n' = c) := fun h => hc h.symm
      simp [beginsWith_cons_cons, hne]

theorem leadNL_le_two_of_noTriple {l : List Char} (h : noTriple l) :
    leadNL l ≤ 2 := by
  by_contra hl
  have h3 : 3 ≤ leadNL l := by omega
  have := containsSub_of_bw ((bw_nl3_iff l).mpr h3)
  unfold noTriple at h
  rw [this] at h
  exact Bool.noConfusion h

/-! ## Lemmas about the newline-collapsing rewrite (lines 163 / 285) -/

theorem containsSub_cons_iff (p c : Char) (ps l : List Char) :
    containsSub (p :: ps) (c :: l) = false ↔
      ¬(p = c ∧ beginsWith ps l = true) ∧ containsSub (p :: ps) l = false := by
  rw [containsSub_cons, beginsWith_cons_cons]
  cases hb : beginsWith ps l <;> cases ht : containsSub (p :: ps) l <;>
    by_cases hp : p = c <;> simp [hp, hb, ht]

theorem bw_one_cons (x c : Char) (cs : List Char) :
    beginsWith [x] (c :: cs) = decide (x = c) := by
  simp [beginsWith_cons_cons, beginsWith_nil_pat]

theorem collapseNLAux_nil (k : Nat) : collapseNLAux k [] = [] := rfl

theorem collapseNLAux_drop {k : Nat} (h : 2 ≤ k) (rest : List Char) :
    collapseNLAux k ('\n' :: rest) = collapseNLAux k rest := by
  simp [collapseNLAux, h]

theorem collapseNLAux_keep {k : Nat} (h : ¬2 ≤ k) (rest : List Char) :
    collapseNLAux k ('\n' :: rest) = '\n' :: collapseNLAux (k + 1) rest := by
  simp [collapseNLAux, h]

theorem collapseNLAux_other {c : Char} (h : ¬c = '\n') (k : Nat)
    (rest : List Char) : collapseNLAux k (c :: rest) = c :: collapseNLAux 0 rest := by
  simp [collapseNLAux, h]

theorem collapseNLAux_noTriple (l : List Char) : ∀ k, k ≤ 2 →
    noTriple (collapseNLAux k l) ∧ leadNL (collapseNLAux k l) + k ≤ 2 := by
  induction l with
  | nil =>
    intro k hk
    exact ⟨noTriple_nil, by rw [collapseNLAux_nil, leadNL_nil]; omega⟩
  | cons c rest ih =>
    intro k hk
    by_cases hc : c = '\n'
    · subst hc
      by_cases h2 : 2 ≤ k
      · rw [collapseNLAux_drop h2]
        exact ih k hk
      · rw [collapseNLAux_keep h2]
        obtain ⟨iht, ihl⟩ := ih (k + 1) (by omega)
        refine ⟨(noTriple_cons_iff _ _).mpr ⟨?_, iht⟩, ?_⟩
        · rintro ⟨-, hl⟩; omega
        · rw [leadNL_cons]; simp; omega
    · rw [collapseNLAux_other hc]
      obtain ⟨iht, ihl⟩ := ih 0 (by omega)
      refine ⟨(noTriple_cons_iff _ _).mpr ⟨?_, iht⟩, ?_⟩
      · rintro ⟨hcn, -⟩; exact hc hcn
      · rw [leadNL_cons]; simp [hc]; omega

theorem collapseNLAux_id (l : List Char) : ∀ k, noTriple l →
    leadNL l + k ≤ 2 → collapseNLAux k l = l := by
  induction l with
  | nil => intro k _ _; rfl
  | cons c rest ih =>
    intro k hnt hlk
    obtain ⟨hhead, htail⟩ := (noTriple_cons_iff c rest).mp hnt
    by_cases hc : c = '\n'
    · subst hc
      rw [leadNL_cons, if_pos rfl] at hlk
      have h2 : ¬2 ≤ k := by omega
      rw [collapseNLAux_keep h2, ih (k + 1) htail (by omega)]
    · rw [collapseNLAux_other hc]
      have hr2 : leadNL rest ≤ 2 := leadNL_le_two_of_noTriple htail
      rw [ih 0 htail (by omega)]

theorem collapseNL_noTriple (l : List Char) : noTriple (collapseNL l) :=
  (collapseNLAux_noTriple l 0 (by omega)).1

theorem collapseNL_id {l : List Char} (h : noTriple l) : collapseNL l = l :=
  collapseNLAux_id l 0 h
    (by have := leadNL_le_two_of_noTriple h; omega)

theorem collapseNLAux_zero_bw_sp (m : List Char) :
    beginsWith [' '] (collapseNLAux 0 m) = beginsWith [' '] m := by
  cases m with
  | nil => rfl
  | cons d m2 =>
    by_cases hd : d = '\n'
    · subst hd
      rw [collapseNLAux_keep (by omega), bw_one_cons, bw_one_cons]
    · rw [collapseNLAux_other hd, bw_one_cons, bw_one_cons]

theorem collapseNLAux_pres_noDbl (l : List Char) : ∀ k, noDbl l →
    noDbl (collapseNLAux k l) := by
  induction l with
  | nil => intro k _; exact rfl
  | cons c rest ih =>
    intro k hnd
    obtain ⟨hhead, htail⟩ := (containsSub_cons_iff _ _ _ _).mp hnd
    by_cases hc : c = '\n'
    · subst hc
      by_cases h2 : 2 ≤ k
      · rw [collapseNLAux_drop h2]; exact ih k htail
      · rw [collapseNLAux_keep h2]
        refine (containsSub_cons_iff _ _ _ _).mpr ⟨?_, ih (k + 1) htail⟩
        rintro ⟨hsp, -⟩
        exact absurd hsp (by decide)
    · rw [collapseNLAux_other hc]
      refine (containsSub_cons_iff _ _ _ _).mpr ⟨?_, ih 0 htail⟩
      rintro ⟨hsp, hbw⟩
      rw [collapseNLAux_zero_bw_sp] at hbw
      exact hhead ⟨hsp, hbw⟩

theorem collapseNLAux_bw_sp (m : List Char) : ∀ k,
    beginsWith [' '] (collapseNLAux k m) = true →
      beginsWith [' '] m = true ∨ containsSub ['\n', ' '] m = true := by
  induction m with
  | nil => intro k h; exact absurd h (by simp [collapseNLAux_nil, beginsWith])
  | cons d m2 ih =>
    intro k h
    by_cases hd : d = '\n'
    · subst hd
      by_cases h2 : 2 ≤ k
      · rw [collapseNLAux_drop h2] at h
        rcases ih k h with hbw | hcs
        · refine Or.inr (containsSub_of_bw ?_)
          rw [show (['\n', ' '] : List Char) = '\n' :: [' '] from rfl,
            beginsWith_cons_cons]
          simp [hbw]
        · exact Or.inr (containsSub_of_tail _ hcs)
      · rw [collapseNLAux_keep h2, bw_one_cons] at h
        exact absurd h (by decide)
    · rw [collapseNLAux_other hd, bw_one_cons] at h
      rw [bw_one_cons]
      exact Or.inl h

theorem collapseNLAux_pres_noNLSp (l : List Char) : ∀ k, noNLSp l →
    noNLSp (collapseNLAux k l) := by
  induction l with
  | nil => intro k _; exact rfl
  | cons c rest ih =>
    intro k hns
    obtain ⟨hhead, htail⟩ := (containsSub_cons_iff _ _ _ _).mp hns
    by_cases hc : c = '\n'
    · subst hc
      by_cases h2 : 2 ≤ k
      · rw [collapseNLAux_drop h2]; exact ih k htail
      · rw [collapseNLAux_keep h2]
        refine (containsSub_cons_iff _ _ _ _).mpr ⟨?_, ih (k + 1) htail⟩
        rintro ⟨-, hbw⟩
        rcases collapseNLAux_bw_sp rest (k + 1) hbw with hb | hcs
        · exact hhead ⟨rfl, hb⟩
        · rw [hcs] at htail; exact Bool.noConfusion htail
    · rw [collapseNLAux_other hc]
      refine (containsSub_cons_iff _ _ _ _).mpr ⟨?_, ih 0 htail⟩
      rintro ⟨hnl, -⟩
      exact hc hnl.symm

/-! ## Lemmas about the space-collapsing rewrite (line 166) -/

theorem collapseSpAux_nil (b : Bool) : collapseSpAux b [] = [] := rfl

theorem collapseSpAux_drop (rest : List Char) :
    collapseSpAux true (' ' :: rest) = collapseSpAux true rest := by
  simp [collapseSpAux]

theorem collapseSpAux_keep (rest : List Char) :
    collapseSpAux false (' ' :: rest) = ' ' :: collapseSpAux true rest := by
  simp [collapseSpAux]

theorem collapseSpAux_other {c : Char} (h : ¬c = ' ') (b : Bool)
    (rest : List Char) : collapseSpAux b (c :: rest) = c :: collapseSpAux false rest := by
  simp [collapseSpAux, h]

theorem collapseSpAux_noDbl (l : List Char) : ∀ b,
    noDbl (collapseSpAux b l) ∧
      (b = true → beginsWith [' '] (collapseSpAux b l) = false) := by
  induction l with
  | nil => intro b; exact ⟨rfl, fun _ => rfl⟩
  | cons c rest ih =>
    intro b
    by_cases hc : c = ' '
    · subst hc
      cases b with
      | true => rw [collapseSpAux_drop]; exact ih true
      | false =>
        rw [collapseSpAux_keep]
        obtain ⟨ihd, ihb⟩ := ih true
        refine ⟨(containsSub_cons_iff _ _ _ _).mpr ⟨?_, ihd⟩, ?_⟩
        · rintro ⟨-, hbw⟩
          rw [ihb rfl] at hbw
          exact Bool.noConfusion hbw
        · intro hb; exact Bool.noConfusion hb
    · rw [collapseSpAux_other hc]
      obtain ⟨ihd, -⟩ := ih false
      refine ⟨(containsSub_cons_iff _ _ _ _).mpr ⟨?_, ihd⟩, ?_⟩
      · rintro ⟨hsp, -⟩; exact hc hsp.symm
      · intro _
        rw [bw_one_cons]
        simp only [decide_eq_false_iff_not]
        exact fun h => hc (Eq.symm h)

theorem collapseSpAux_id (l : List Char) : ∀ b, noDbl l →
    (b = true → beginsWith [' '] l = false) → collapseSpAux b l = l := by
  induction l with
  | nil => intro b _ _; rfl
  | cons c rest ih =>
    intro b hnd hb
    obtain ⟨hhead, htail⟩ := (containsSub_cons_iff _ _ _ _).mp hnd
    by_cases hc : c = ' '
    · subst hc
      cases b with
      | true =>
        exact absurd (hb rfl) (by rw [bw_one_cons]; simp)
      | false =>
        rw [collapseSpAux_keep, ih true htail ?_]
        intro _
        by_contra hbw
        simp only [Bool.not_eq_false] at hbw
        exact hhead ⟨rfl, hbw⟩
    · rw [collapseSpAux_other hc, ih false htail (fun h => Bool.noConfusion h)]

theorem collapseSp_noDbl (l : List Char) : noDbl (collapseSp l) :=
  (collapseSpAux_noDbl l false).1

theorem collapseSp_id {l : List Char} (h : noDbl l) : collapseSp l = l :=
  collapseSpAux_id l false h (fun hb => Bool.noConfusion hb)

theorem collapseSpAux_false_leadNL (m : List Char) :
    leadNL (collapseSpAux false m) = leadNL m := by
  induction m with
  | nil => rfl
  | cons d m2 ih =>
    by_cases hd : d = ' '
    · subst hd
      rw [collapseSpAux_keep, leadNL_cons, leadNL_cons]
      simp
    · rw [collapseSpAux_other hd, leadNL_cons, leadNL_cons]
      by_cases hdn : d = '\n'
      · simp [hdn, ih]
      · simp [hdn]

theorem collapseSpAux_pres_noTriple (l : List Char) : ∀ b, noTriple l →
    noTriple (collapseSpAux b l) := by
  induction l with
  | nil => intro b _; exact rfl
  | cons c rest ih =>
    intro b hnt
    obtain ⟨hhead, htail⟩ := (noTriple_cons_iff _ _).mp hnt
    by_cases hc : c = ' '
    · subst hc
      cases b with
      | true => rw [collapseSpAux_drop]; exact ih true htail
      | false =>
        rw [collapseSpAux_keep]
        refine (noTriple_cons_iff _ _).mpr ⟨?_, ih true htail⟩
        rintro ⟨hsp, -⟩
        exact absurd hsp (by decide)
    · rw [collapseSpAux_other hc]
      refine (noTriple_cons_iff _ _).mpr ⟨?_, ih false htail⟩
      rintro ⟨hnl, hlead⟩
      rw [collapseSpAux_false_leadNL] at hlead
      exact hhead ⟨hnl, hlead⟩

/-! ## Lemmas about the post-newline-space rewrite (line 167) -/

theorem dropNLSpAux_nil (b : Bool) : dropNLSpAux b [] = [] := rfl

theorem dropNLSpAux_drop (rest : List Char) :
    dropNLSpAux true (' ' :: rest) = dropNLSpAux true rest := by
  simp [dropNLSpAux]

theorem dropNLSpAux_keep {b : Bool} {c : Char} (h : ¬(b = true ∧ c = ' '))
    (rest : List Char) :
    dropNLSpAux b (c :: rest) = c :: dropNLSpAux (decide (c = '\n')) rest := by
  cases b with
  | true =>
    have hc : ¬c = ' ' := fun hh => h ⟨rfl, hh⟩
    simp [dropNLSpAux, hc]
  | false => simp [dropNLSpAux]

theorem dropNLSpAux_true_bw_sp (m : List Char) :
    beginsWith [' '] (dropNLSpAux true m) = false := by
  induction m with
  | nil => rfl
  | cons d m2 ih =>
    by_cases hd : d = ' '
    · subst hd; rw [dropNLSpAux_drop]; exact ih
    · rw [dropNLSpAux_keep (fun hh => hd hh.2), bw_one_cons]
      simp only [decide_eq_false_iff_not]
      exact fun h => hd (Eq.symm h)

theorem dropNLSpAux_noNLSp (l : List Char) : ∀ b,
    noNLSp (dropNLSpAux b l) := by
  induction l with
  | nil => intro b; exact rfl
  | cons c rest ih =>
    intro b
    by_cases hbc : b = true ∧ c = ' '
    · obtain ⟨hb, hc⟩ := hbc
      subst hb; subst hc
      rw [dropNLSpAux_drop]; exact ih true
    · rw [dropNLSpAux_keep hbc]
      refine (containsSub_cons_iff _ _ _ _).mpr ⟨?_, ih _⟩
      rintro ⟨hnl, hbw⟩
      rw [← hnl] at hbw
      rw [show decide ('\n' = '\n') = true from by decide] at hbw
      rw [dropNLSpAux_true_bw_sp] at hbw
      exact Bool.noConfusion hbw

theorem dropNLSpAux_id (l : List Char) : ∀ b, noNLSp l →
    (b = true → beginsWith [' '] l = false) → dropNLSpAux b l = l := by
  induction l with
  | nil => intro b _ _; rfl
  | cons c rest ih =>
    intro b hns hb
    obtain ⟨hhead, htail⟩ := (containsSub_cons_iff _ _ _ _).mp hns
    by_cases hbc : b = true ∧ c = ' '
    · exact absurd (hb hbc.1) (by rw [bw_one_cons, hbc.2]; simp)
    · rw [dropNLSpAux_keep hbc, ih _ htail ?_]
      intro hdec
      have hcn : c = '\n' := of_decide_eq_true hdec
      by_contra hbw
      simp only [Bool.not_eq_false] at hbw
      exact hhead ⟨hcn.symm, hbw⟩

theorem dropNLSp_noNLSp (l : List Char) : noNLSp (dropNLSp l) :=
  dropNLSpAux_noNLSp l false

theorem dropNLSp_id {l : List Char} (h : noNLSp l) : dropNLSp l = l :=
  dropNLSpAux_id l false h (fun hb => Bool.noConfusion hb)

theorem dropNLSpAux_false_bw (x : Char) (m : List Char) :
    beginsWith [x] (dropNLSpAux false m) = beginsWith [x] m := by
  cases m with
  | nil => rfl
  | cons d m2 =>
    rw [dropNLSpAux_keep (fun hh => Bool.noConfusion hh.1), bw_one_cons,
      bw_one_cons]

theorem dropNLSpAux_pres_noDbl (l : List Char) : ∀ b, noDbl l →
    noDbl (dropNLSpAux b l) := by
  induction l with
  | nil => intro b _; exact rfl
  | cons c rest ih =>
    intro b hnd
    obtain ⟨hhead, htail⟩ := (containsSub_cons_iff _ _ _ _).mp hnd
    by_cases hbc : b = true ∧ c = ' '
    · obtain ⟨hb, hc⟩ := hbc
      subst hb; subst hc
      rw [dropNLSpAux_drop]; exact ih true htail
    · rw [dropNLSpAux_keep hbc]
      refine (containsSub_cons_iff _ _ _ _).mpr ⟨?_, ih _ htail⟩
      rintro ⟨hsp, hbw⟩
      by_cases hcn : c = '\n'
      · exact absurd (hsp.trans hcn) (by decide)
      · rw [show decide (c = '\n') = false from by simp [hcn]] at hbw
        rw [dropNLSpAux_false_bw] at hbw
        exact hhead ⟨hsp, hbw⟩

/-! ## Lemmas about the list-gap rewrite (line 288) -/

theorem fixListGap_match (rest : List Char) :
    fixListGap ('\n' :: '\n' :: '-' :: ' ' :: rest) =
      '\n' :: '-' :: ' ' :: fixListGap rest := rfl

theorem fixListGap_cons (c : Char) (rest : List Char)
    (h2 : ∀ r, c = '\n' → rest = '\n' :: '-' :: ' ' :: r → False) :
    fixListGap (c :: rest) = c :: fixListGap rest := by
  rw [fixListGap.eq_def]
  split
  · rename_i r heq
    injection heq with e1 e2
    exact absurd (h2 r e1 e2) (fun h => h)
  · rename_i c2 r2 heq
    injection heq with e1 e2
    subst e1; subst e2
    rfl
  · rename_i heq
    cases heq

theorem fixListGap_nil : fixListGap [] = [] := rfl

theorem fixListGap_bw_one (x : Char) (m : List Char) :
    beginsWith [x] (fixListGap m) = beginsWith [x] m := by
  induction m using fixListGap.induct with
  | case1 rest ih => rw [fixListGap_match, bw_one_cons, bw_one_cons]
  | case2 c rest h2 ih => rw [fixListGap_cons c rest h2, bw_one_cons, bw_one_cons]
  | case3 => rfl

theorem fixListGap_bw_nlnl {m : List Char}
    (h : beginsWith ['\n', '\n'] (fixListGap m) = true) :
    beginsWith ['\n', '\n'] m = true := by
  induction m using fixListGap.induct with
  | case1 rest ih =>
    rw [fixListGap_match] at h
    simp [beginsWith_cons_cons] at h
  | case2 c rest h2 ih =>
    rw [fixListGap_cons c rest h2] at h
    rw [show (['\n', '\n'] : List Char) = '\n' :: ['\n'] from rfl,
      beginsWith_cons_cons] at h ⊢
    simp only [Bool.and_eq_true, decide_eq_true_eq] at h ⊢
    exact ⟨h.1, by rw [fixListGap_bw_one] at h; exact h.2⟩
  | case3 => exact absurd h (by simp [fixListGap_nil, beginsWith])

theorem fixListGap_bw_dash {m : List Char}
    (h : beginsWith ['-', ' '] (fixListGap m) = true) :
    beginsWith ['-', ' '] m = true := by
  induction m using fixListGap.induct with
  | case1 rest ih =>
    rw [fixListGap_match] at h
    simp [beginsWith_cons_cons] at h
  | case2 c rest h2 ih =>
    rw [fixListGap_cons c rest h2] at h
    rw [show (['-', ' '] : List Char) = '-' :: [' '] from rfl,
      beginsWith_cons_cons] at h ⊢
    simp only [Bool.and_eq_true, decide_eq_true_eq] at h ⊢
    exact ⟨h.1, by rw [fixListGap_bw_one] at h; exact h.2⟩
  | case3 => exact absurd h (by simp [fixListGap_nil, beginsWith])

theorem fixListGap_bw_item {m : List Char}
    (h : beginsWith ['\n', '-', ' '] (fixListGap m) = true) :
    beginsWith ['\n', '-', ' '] m = true ∨
      beginsWith ['\n', '\n', '-', ' '] m = true := by
  induction m using fixListGap.induct with
  | case1 rest ih =>
    refine Or.inr ?_
    simp [beginsWith_cons_cons, beginsWith_nil_pat]
  | case2 c rest h2 ih =>
    rw [fixListGap_cons c rest h2] at h
    rw [show (['\n', '-', ' '] : List Char) = '\n' :: ['-', ' '] from rfl,
      beginsWith_cons_cons] at h
    simp only [Bool.and_eq_true, decide_eq_true_eq] at h
    refine Or.inl ?_
    rw [show (['\n', '-', ' '] : List Char) = '\n' :: ['-', ' '] from rfl,
      beginsWith_cons_cons]
    simp only [Bool.and_eq_true, decide_eq_true_eq]
    exact ⟨h.1, fixListGap_bw_dash h.2⟩
  | case3 => exact absurd h (by simp [fixListGap_nil, beginsWith])

theorem noX_four_unfold {p : List Char} {a b c d : Char} {t : List Char}
    (h0 : beginsWith p (a :: b :: c :: d :: t) = false)
    (h1 : beginsWith p (b :: c :: d :: t) = false)
    (h2 : beginsWith p (c :: d :: t) = false)
    (h3 : beginsWith p (d :: t) = false)
    (ht : containsSub p t = false) :
    containsSub p (a :: b :: c :: d :: t) = false := by
  rw [containsSub_cons, containsSub_cons, containsSub_cons, containsSub_cons,
    h0, h1, h2, h3, ht]
  rfl

theorem fixListGap_pres_noTriple {l : List Char} (h : noTriple l) :
    noTriple (fixListGap l) := by
  induction l using fixListGap.induct with
  | case1 rest ih =>
    rw [fixListGap_match]
    have htail : noTriple rest := by
      have h1 := tail_of_not_containsSub h
      have h2 := tail_of_not_containsSub h1
      have h3 := tail_of_not_containsSub h2
      exact tail_of_not_containsSub h3
    refine (noTriple_cons_iff _ _).mpr ⟨?_, ?_⟩
    · rintro ⟨-, hl⟩
      rw [leadNL_cons] at hl
      simp at hl
    refine (noTriple_cons_iff _ _).mpr ⟨?_, ?_⟩
    · rintro ⟨hd, -⟩
      exact absurd hd (by decide)
    refine (noTriple_cons_iff _ _).mpr ⟨?_, ih htail⟩
    · rintro ⟨hd, -⟩
      exact absurd hd (by decide)
  | case2 c rest h2 ih =>
    rw [fixListGap_cons c rest h2]
    obtain ⟨hhead, htail⟩ := (noTriple_cons_iff _ _).mp h
    refine (noTriple_cons_iff _ _).mpr ⟨?_, ih htail⟩
    rintro ⟨rfl, hl⟩
    have hbw := (bw_nl2_iff _).mpr hl
    have hbw2 := fixListGap_bw_nlnl hbw
    exact hhead ⟨rfl, (bw_nl2_iff _).mp hbw2⟩
  | case3 => exact h

theorem fixListGap_noGap {l : List Char} (h : noTriple l) :
    noGap (fixListGap l) := by
  induction l using fixListGap.induct with
  | case1 rest ih =>
    rw [fixListGap_match]
    have htail : noTriple rest := by
      have h1 := tail_of_not_containsSub h
      have h2 := tail_of_not_containsSub h1
      have h3 := tail_of_not_containsSub h2
      exact tail_of_not_containsSub h3
    unfold noGap
    rw [containsSub_cons, containsSub_cons, containsSub_cons]
    have e0 : beginsWith ['\n', '\n', '-', ' ']
        ('\n' :: '-' :: ' ' :: fixListGap rest) = false := by
      simp [beginsWith_cons_cons]
    have e1 : beginsWith ['\n', '\n', '-', ' ']
        ('-' :: ' ' :: fixListGap rest) = false := by
      simp [beginsWith_cons_cons]
    have e2 : beginsWith ['\n', '\n', '-', ' ']
        (' ' :: fixListGap rest) = false := by
      simp [beginsWith_cons_cons]
    rw [e0, e1, e2, ih htail]
    rfl
  | case2 c rest h2 ih =>
    rw [fixListGap_cons c rest h2]
    obtain ⟨hhead, htail⟩ := (noTriple_cons_iff _ _).mp h
    unfold noGap
    refine (containsSub_cons_iff _ _ _ _).mpr ⟨?_, ih htail⟩
    rintro ⟨rfl, hbw⟩
    rcases fixListGap_bw_item hbw with hb3 | hb4
    · obtain ⟨r, hr⟩ := bw_iff_append.mp hb3
      exact h2 r rfl hr
    · have hb2 : beginsWith ['\n', '\n'] rest = true :=
        bw_of_bw_append (p := ['\n', '\n']) (q := ['-', ' ']) hb4
      exact hhead ⟨rfl, (bw_nl2_iff _).mp hb2⟩
  | case3 => exact h

theorem fixListGap_pres_noDbl {l : List Char} (h : noDbl l) :
    noDbl (fixListGap l) := by
  induction l using fixListGap.induct with
  | case1 rest ih =>
    rw [fixListGap_match]
    have h1 := tail_of_not_containsSub h
    have h2 := tail_of_not_containsSub h1
    have h3 := tail_of_not_containsSub h2
    have htail := tail_of_not_containsSub h3
    obtain ⟨hsp, -⟩ := (containsSub_cons_iff _ _ _ _).mp h3
    refine (containsSub_cons_iff _ _ _ _).mpr ⟨?_, ?_⟩
    · rintro ⟨hd, -⟩; exact absurd hd (by decide)
    refine (containsSub_cons_iff _ _ _ _).mpr ⟨?_, ?_⟩
    · rintro ⟨hd, -⟩; exact absurd hd (by decide)
    refine (containsSub_cons_iff _ _ _ _).mpr ⟨?_, ih htail⟩
    rintro ⟨-, hbw⟩
    rw [fixListGap_bw_one] at hbw
    exact hsp ⟨rfl, hbw⟩
  | case2 c rest h2 ih =>
    rw [fixListGap_cons c rest h2]
    obtain ⟨hhead, htail⟩ := (containsSub_cons_iff _ _ _ _).mp h
    refine (containsSub_cons_iff _ _ _ _).mpr ⟨?_, ih htail⟩
    rintro ⟨hsp, hbw⟩
    rw [fixListGap_bw_one] at hbw
    exact hhead ⟨hsp, hbw⟩
  | case3 => exact h

theorem fixListGap_pres_noNLSp {l : List Char} (h : noNLSp l) :
    noNLSp (fixListGap l) := by
  induction l using fixListGap.induct with
  | case1 rest ih =>
    rw [fixListGap_match]
    have h1 := tail_of_not_containsSub h
    have h2 := tail_of_not_containsSub h1
    have h3 := tail_of_not_containsSub h2
    have htail := tail_of_not_containsSub h3
    refine (containsSub_cons_iff _ _ _ _).mpr ⟨?_, ?_⟩
    · rintro ⟨-, hbw⟩
      rw [bw_one_cons] at hbw
      exact absurd hbw (by decide)
    refine (containsSub_cons_iff _ _ _ _).mpr ⟨?_, ?_⟩
    · rintro ⟨hd, -⟩; exact absurd hd (by decide)
    refine (containsSub_cons_iff _ _ _ _).mpr ⟨?_, ih htail⟩
    · rintro ⟨hd, -⟩; exact absurd hd (by decide)
  | case2 c rest h2 ih =>
    rw [fixListGap_cons c rest h2]
    obtain ⟨hhead, htail⟩ := (containsSub_cons_iff _ _ _ _).mp h
    refine (containsSub_cons_iff _ _ _ _).mpr ⟨?_, ih htail⟩
    rintro ⟨hnl, hbw⟩
    rw [fixListGap_bw_one] at hbw
    exact hhead ⟨hnl, hbw⟩
  | case3 => exact h

theorem fixListGap_id {l : List Char} (h : noGap l) : fixListGap l = l := by
  induction l using fixListGap.induct with
  | case1 rest ih =>
    exfalso
    have hbw : beginsWith ['\n', '\n', '-', ' ']
        ('\n' :: '\n' :: '-' :: ' ' :: rest) = true := by
      simp [beginsWith_cons_cons, beginsWith_nil_pat]
    have hcs := containsSub_of_bw hbw
    unfold noGap at h
    rw [hcs] at h
    exact Bool.noConfusion h
  | case2 c rest h2 ih =>
    rw [fixListGap_cons c rest h2, ih (tail_of_not_containsSub h)]
  | case3 => rfl

/-! ## Lemmas about the literal triple-newline rewrite (line 289) -/

theorem ct_cons (c : Char) (rest : List Char)
    (h2 : ∀ r, c = '\n' → rest = '\n' :: '\n' :: r → False) :
    collapseTriple (c :: rest) = c :: collapseTriple rest := by
  rw [collapseTriple.eq_def]
  split
  · rename_i r heq
    injection heq with e1 e2
    exact absurd (h2 r e1 e2) (fun hh => hh)
  · rename_i c2 r2 heq
    injection heq with e1 e2
    subst e1; subst e2
    rfl
  · rename_i heq
    cases heq

theorem collapseTriple_id {l : List Char} (h : noTriple l) :
    collapseTriple l = l := by
  induction l using collapseTriple.induct with
  | case1 rest ih =>
    exfalso
    have hbw : beginsWith ['\n', '\n', '\n'] ('\n' :: '\n' :: '\n' :: rest) = true := by
      simp [beginsWith_cons_cons, beginsWith_nil_pat]
    have hcs := containsSub_of_bw hbw
    unfold noTriple at h
    rw [hcs] at h
    exact Bool.noConfusion h
  | case2 c rest h2 ih =>
    rw [ct_cons c rest h2, ih (tail_of_not_containsSub h)]
  | case3 => rfl

/-! ## Lemmas about the empty-list-item rewrite (line 292) -/

theorem fixEmptyItems_cons (c : Char) (rest : List Char)
    (h2 : ∀ r, c = '\n' →
      rest = '-' :: ' ' :: '\n' :: '\n' :: '-' :: ' ' :: r → False) :
    fixEmptyItems (c :: rest) = c :: fixEmptyItems rest := by
  rw [fixEmptyItems.eq_def]
  split
  · rename_i r heq
    injection heq with e1 e2
    exact absurd (h2 r e1 e2) (fun hh => hh)
  · rename_i c2 r2 heq
    injection heq with e1 e2
    subst e1; subst e2
    rfl
  · rename_i heq
    cases heq

theorem fixEmptyItems_id {l : List Char} (h : noGap l) : fixEmptyItems l = l := by
  induction l using fixEmptyItems.induct with
  | case1 rest ih =>
    exfalso
    have hbw : beginsWith ['\n', '\n', '-', ' ']
        ('\n' :: '\n' :: '-' :: ' ' :: rest) = true := by
      simp [beginsWith_cons_cons, beginsWith_nil_pat]
    have hc : containsSub ['\n', '\n', '-', ' ']
        ('\n' :: '-' :: ' ' :: '\n' :: '\n' :: '-' :: ' ' :: rest) = true := by
      refine containsSub_of_tail _ (containsSub_of_tail _ (containsSub_of_tail _
        (containsSub_of_bw hbw)))
    unfold noGap at h
    rw [hc] at h
    exact Bool.noConfusion h
  | case2 c rest h2 ih =>
    rw [fixEmptyItems_cons c rest h2, ih (tail_of_not_containsSub h)]
  | case3 => rfl

/-! ## Lemmas about the heading blank-line rewrite (line 295) -/

theorem hpParse_none {m : List Char} (h : '#' ∉ m) : hpParse m = none := by
  cases m with
  | nil => rfl
  | cons d m2 =>
    have hd : ¬d = '#' := fun hh => h (hh ▸ List.mem_cons_self d m2)
    have ht : (d :: m2).takeWhile (fun c => c = '#') = [] := by
      simp [List.takeWhile_cons, hd]
    have hdw : (d :: m2).dropWhile (fun c => c = '#') = d :: m2 := by
      simp [List.dropWhile_cons, hd]
    simp [hpParse, ht, hdw]

theorem insertBlankAux_id : ∀ fuel, ∀ l : List Char, '#' ∉ l →
    insertBlankAux fuel l = l := by
  intro fuel
  induction fuel with
  | zero => intro l _; rfl
  | succ fuel ih =>
    intro l hl
    match l with
    | [] => rfl
    | c :: rest =>
      have hrest : '#' ∉ rest := fun hh => hl (List.mem_cons_of_mem c hh)
      by_cases hc : c = '\n'
      · rw [show insertBlankAux (fuel + 1) (c :: rest) =
          c :: insertBlankAux fuel rest from by
            simp only [insertBlankAux, if_pos hc]]
        rw [ih rest hrest]
      · match rest with
        | [] =>
          rw [show insertBlankAux (fuel + 1) (c :: ([] : List Char)) =
            c :: insertBlankAux fuel [] from by
              simp only [insertBlankAux, if_neg hc]]
          rw [ih [] hrest]
        | d :: rest2 =>
          by_cases hd : d = '\n'
          · have h2 : '#' ∉ rest2 := fun hh =>
              hrest (List.mem_cons_of_mem _ hh)
            rw [show insertBlankAux (fuel + 1) (c :: d :: rest2) =
              c :: insertBlankAux fuel (d :: rest2) from by
                simp only [insertBlankAux, if_neg hc, if_pos hd,
                  hpParse_none h2]]
            rw [ih _ hrest]
          · rw [show insertBlankAux (fuel + 1) (c :: d :: rest2) =
              c :: insertBlankAux fuel (d :: rest2) from by
                simp only [insertBlankAux, if_neg hc, if_neg hd]]
            rw [ih _ hrest]

theorem insertBlankHeading_id {l : List Char} (h : '#' ∉ l) :
    insertBlankHeading l = l :=
  insertBlankAux_id (l.length + 1) l h

/-! ## Lemmas about `str.strip` (line 298) -/

theorem pyRStrip_cons (c : Char) (rest : List Char) :
    pyRStrip (c :: rest) =
      if pyRStrip rest = [] ∧ isPyWs c then [] else c :: pyRStrip rest := rfl

theorem pyRStrip_front (l : List Char) : ∃ t, l = pyRStrip l ++ t := by
  induction l with
  | nil => exact ⟨[], rfl⟩
  | cons c rest ih =>
    rw [pyRStrip_cons]
    by_cases hc : pyRStrip rest = [] ∧ isPyWs c
    · rw [if_pos hc]
      exact ⟨c :: rest, rfl⟩
    · rw [if_neg hc]
      obtain ⟨t, ht⟩ := ih
      exact ⟨t, by rw [List.cons_append, ← ht]⟩

theorem containsSub_pyRStrip {p l : List Char}
    (h : containsSub p (pyRStrip l) = true) : containsSub p l = true := by
  obtain ⟨t, ht⟩ := pyRStrip_front l
  rw [ht]
  exact containsSub_append_left t h

theorem containsSub_pyLStrip {p l : List Char}
    (h : containsSub p (pyLStrip l) = true) : containsSub p l = true := by
  induction l with
  | nil => exact h
  | cons c rest ih =>
    unfold pyLStrip at h
    rw [List.dropWhile_cons] at h
    by_cases hc : isPyWs c = true
    · rw [if_pos hc] at h
      exact containsSub_of_tail c (ih h)
    · rw [if_neg hc] at h
      exact h

theorem containsSub_pyStrip {p l : List Char}
    (h : containsSub p (pyStrip l) = true) : containsSub p l = true :=
  containsSub_pyLStrip (containsSub_pyRStrip h)

theorem mem_pyRStrip {a : Char} {l : List Char} (h : a ∈ pyRStrip l) :
    a ∈ l := by
  obtain ⟨t, ht⟩ := pyRStrip_front l
  rw [ht]
  exact List.mem_append_left t h

theorem mem_pyLStrip {a : Char} {l : List Char} (h : a ∈ pyLStrip l) :
    a ∈ l := by
  induction l with
  | nil => exact h
  | cons c rest ih =>
    unfold pyLStrip at h
    rw [List.dropWhile_cons] at h
    by_cases hc : isPyWs c = true
    · rw [if_pos hc] at h
      exact List.mem_cons_of_mem c (ih h)
    · rw [if_neg hc] at h
      exact h

theorem mem_pyStrip {a : Char} {l : List Char} (h : a ∈ pyStrip l) : a ∈ l :=
  mem_pyLStrip (mem_pyRStrip h)

theorem pyRStrip_idem (l : List Char) : pyRStrip (pyRStrip l) = pyRStrip l := by
  induction l with
  | nil => rfl
  | cons c rest ih =>
    rw [pyRStrip_cons]
    by_cases hc : pyRStrip rest = [] ∧ isPyWs c
    · rw [if_pos hc]; rfl
    · rw [if_neg hc, pyRStrip_cons, ih]
      rw [if_neg hc]

theorem pyRStrip_cons_shape {m : List Char} {c : Char} {cs : List Char}
    (h : pyRStrip m = c :: cs) : ∃ t, m = c :: t := by
  cases m with
  | nil => exact absurd h (by simp [pyRStrip])
  | cons d t =>
    rw [pyRStrip_cons] at h
    by_cases hd : pyRStrip t = [] ∧ isPyWs d
    · rw [if_pos hd] at h
      exact absurd h (by simp)
    · rw [if_neg hd] at h
      injection h with e1 _
      exact ⟨t, by rw [e1]⟩

theorem pyLStrip_head {l : List Char} {c : Char} {cs : List Char}
    (h : pyLStrip l = c :: cs) : isPyWs c = false := by
  induction l with
  | nil => exact absurd h (by simp [pyLStrip])
  | cons d t ih =>
    unfold pyLStrip at h
    rw [List.dropWhile_cons] at h
    by_cases hd : isPyWs d = true
    · rw [if_pos hd] at h
      exact ih h
    · rw [if_neg hd] at h
      injection h with e1 _
      subst e1
      simpa using hd

theorem pyStrip_idem (l : List Char) : pyStrip (pyStrip l) = pyStrip l := by
  have hls : pyLStrip (pyStrip l) = pyStrip l := by
    cases hc : pyStrip l with
    | nil => rfl
    | cons c cs =>
      have hshape := pyRStrip_cons_shape (m := pyLStrip l) hc
      obtain ⟨t, ht⟩ := hshape
      have hw : isPyWs c = false := pyLStrip_head ht
      unfold pyLStrip
      rw [List.dropWhile_cons, if_neg (by simp [hw])]
  unfold pyStrip
  rw [show pyLStrip (pyRStrip (pyLStrip l)) = pyLStrip (pyStrip l) from rfl,
    hls]
  exact pyRStrip_idem _

/-! ## The rewrites do not introduce `#` characters -/

theorem collapseNLAux_no_hash {l : List Char} (h : '#' ∉ l) : ∀ k,
    '#' ∉ collapseNLAux k l := by
  induction l with
  | nil => intro k; simp [collapseNLAux_nil]
  | cons c rest ih =>
    intro k
    have hrest : '#' ∉ rest := fun hh => h (List.mem_cons_of_mem c hh)
    have hc0 : ¬c = '#' := fun hh => h (hh ▸ List.mem_cons_self c rest)
    by_cases hc : c = '\n'
    · subst hc
      by_cases h2 : 2 ≤ k
      · rw [collapseNLAux_drop h2]; exact ih hrest k
      · rw [collapseNLAux_keep h2]
        intro hm
        rcases List.mem_cons.mp hm with he | ht
        · exact absurd he (by decide)
        · exact ih hrest (k + 1) ht
    · rw [collapseNLAux_other hc]
      intro hm
      rcases List.mem_cons.mp hm with he | ht
      · exact hc0 he.symm
      · exact ih hrest 0 ht

theorem collapseSpAux_no_hash {l : List Char} (h : '#' ∉ l) : ∀ b,
    '#' ∉ collapseSpAux b l := by
  induction l with
  | nil => intro b; simp [collapseSpAux_nil]
  | cons c rest ih =>
    intro b
    have hrest : '#' ∉ rest := fun hh => h (List.mem_cons_of_mem c hh)
    have hc0 : ¬c = '#' := fun hh => h (hh ▸ List.mem_cons_self c rest)
    by_cases hc : c = ' '
    · subst hc
      cases b with
      | true => rw [collapseSpAux_drop]; exact ih hrest true
      | false =>
        rw [collapseSpAux_keep]
        intro hm
        rcases List.mem_cons.mp hm with he | ht
        · exact absurd he (by decide)
        · exact ih hrest true ht
    · rw [collapseSpAux_other hc]
      intro hm
      rcases List.mem_cons.mp hm with he | ht
      · exact hc0 he.symm
      · exact ih hrest false ht

theorem dropNLSpAux_no_hash {l : List Char} (h : '#' ∉ l) : ∀ b,
    '#' ∉ dropNLSpAux b l := by
  induction l with
  | nil => intro b; simp [dropNLSpAux_nil]
  | cons c rest ih =>
    intro b
    have hrest : '#' ∉ rest := fun hh => h (List.mem_cons_of_mem c hh)
    have hc0 : ¬c = '#' := fun hh => h (hh ▸ List.mem_cons_self c rest)
    by_cases hbc : b = true ∧ c = ' '
    · obtain ⟨hb, hcc⟩ := hbc
      subst hb; subst hcc
      rw [dropNLSpAux_drop]
      exact ih hrest true
    · rw [dropNLSpAux_keep hbc]
      intro hm
      rcases List.mem_cons.mp hm with he | ht
      · exact hc0 he.symm
      · exact ih hrest _ ht

theorem fixListGap_no_hash {l : List Char} (h : '#' ∉ l) :
    '#' ∉ fixListGap l := by
  induction l using fixListGap.induct with
  | case1 rest ih =>
    rw [fixListGap_match]
    have hrest : '#' ∉ rest := by
      intro hh
      exact h (by simp [hh])
    intro hm
    rcases List.mem_cons.mp hm with he | hm2
    · exact absurd he (by decide)
    rcases List.mem_cons.mp hm2 with he | hm3
    · exact absurd he (by decide)
    rcases List.mem_cons.mp hm3 with he | hm4
    · exact absurd he (by decide)
    · exact ih hrest hm4
  | case2 c rest h2 ih =>
    rw [fixListGap_cons c rest h2]
    have hrest : '#' ∉ rest := fun hh => h (List.mem_cons_of_mem c hh)
    have hc0 : ¬c = '#' := fun hh => h (hh ▸ List.mem_cons_self c rest)
    intro hm
    rcases List.mem_cons.mp hm with he | ht
    · exact hc0 he.symm
    · exact ih hrest ht
  | case3 => exact h

theorem noX_pyStrip {p l : List Char} (h : containsSub p l = false) :
    containsSub p (pyStrip l) = false := by
  by_contra hc
  simp only [Bool.not_eq_false] at hc
  rw [containsSub_pyStrip hc] at h
  exact Bool.noConfusion h

theorem no_hash_pyStrip {l : List Char} (h : '#' ∉ l) : '#' ∉ pyStrip l :=
  fun hm => h (mem_pyStrip hm)

/-- The shape invariants established by one run of the clean-up pass on a
`#`-free string: its output is stripped and avoids all four rewrite
patterns. -/
theorem post_process_invariants (x : List Char) (h : '#' ∉ x) :
    noTriple (post_process x) ∧ noDbl (post_process x) ∧
      noNLSp (post_process x) ∧ noGap (post_process x) ∧
      '#' ∉ post_process x ∧ pyStrip (post_process x) = post_process x := by
  unfold post_process
  set x1 := collapseNL x with hx1
  set x2 := collapseSp x1 with hx2
  set x3 := dropNLSp x2 with hx3
  set x4 := collapseNL x3 with hx4
  set x5 := fixListGap x4 with hx5
  have hh1 : '#' ∉ x1 := collapseNLAux_no_hash h 0
  have hh2 : '#' ∉ x2 := collapseSpAux_no_hash hh1 false
  have hh3 : '#' ∉ x3 := dropNLSpAux_no_hash hh2 false
  have hh4 : '#' ∉ x4 := collapseNLAux_no_hash hh3 0
  have hh5 : '#' ∉ x5 := fixListGap_no_hash hh4
  have ht4 : noTriple x4 := collapseNL_noTriple x3
  have hd2 : noDbl x2 := collapseSp_noDbl x1
  have hd3 : noDbl x3 := dropNLSpAux_pres_noDbl x2 false hd2
  have hd4 : noDbl x4 := collapseNLAux_pres_noDbl x3 0 hd3
  have hs3 : noNLSp x3 := dropNLSp_noNLSp x2
  have hs4 : noNLSp x4 := collapseNLAux_pres_noNLSp x3 0 hs3
  have ht5 : noTriple x5 := fixListGap_pres_noTriple ht4
  have hd5 : noDbl x5 := fixListGap_pres_noDbl hd4
  have hs5 : noNLSp x5 := fixListGap_pres_noNLSp hs4
  have hg5 : noGap x5 := fixListGap_noGap ht4
  rw [collapseTriple_id ht5, fixEmptyItems_id hg5, insertBlankHeading_id hh5]
  refine ⟨noX_pyStrip ht5, noX_pyStrip hd5, noX_pyStrip hs5, noX_pyStrip hg5,
    no_hash_pyStrip hh5, pyStrip_idem x5⟩

/-- C4 (amended): on every string that contains no `#` character, the
post-processing pass of `html_to_markdown` (the rewrites of helper.py lines
163, 166, 167, 285, 288, 289, 292, 295 followed by the final strip of line
298) is idempotent.  (The restriction to `#`-free strings is forced by the
counterexample `C4_counterexample`: the blank-line-before-heading rewrite of
line 295 is not idempotent.) -/
theorem C4_theorem (x : List Char) (h : '#' ∉ x) :
    post_process (post_process x) = post_process x := by
  obtain ⟨ht, hd, hs, hg, hh, hstr⟩ := post_process_invariants x h
  conv_lhs => rw [post_process]
  rw [collapseNL_id ht, collapseSp_id hd, dropNLSp_id hs, collapseNL_id ht,
    fixListGap_id hg, collapseTriple_id ht, fixEmptyItems_id hg,
    insertBlankHeading_id hh, hstr]

/-- C4 witness: the amended idempotence theorem applied to a concrete
`#`-free string with a triple newline, a double space and surrounding
whitespace. -/
theorem C4_witness :
    '#' ∉ " a\n\n\nb  c ".data ∧
      post_process (post_process " a\n\n\nb  c ".data) =
        post_process " a\n\n\nb  c ".data :=
  ⟨by decide, C4_theorem " a\n\n\nb  c ".data (by decide)⟩

/-- C4 counterexample: the post-processing pass is not idempotent as claimed.
On `"a\n#\n# b"` one application yields `"a\n\n#\n# b"` (the heading rewrite
of helper.py line 295 consumes the newline before the second heading as its
`\s`, so that heading is not processed), while a second application inserts
another blank line, yielding `"a\n\n#\n\n# b"`. -/
theorem C4_counterexample :
    post_process (post_process "a\n#\n# b".data) ≠
      post_process "a\n#\n# b".data := by
  decide

/-! ## Splitting on paragraph boundaries: Python `text.split("\n\n")` -/

/-- Prepend a character to the first piece of a split result. -/
def consHead (c : Char) : List (List Char) → List (List Char)
  | [] => [[c]]
  | p :: ps => (c :: p) :: ps

/-- Python `text.split("\n\n")`: split at each leftmost non-overlapping
occurrence of two newlines, keeping empty pieces. -/
def splitPara : List Char → List (List Char)
  | '\n' :: '\n' :: rest => [] :: splitPara rest
  | c :: rest => consHead c (splitPara rest)
  | [] => [[]]

/-- Python `"\n\n".join(pieces)`. -/
def joinPara : List (List Char) → List Char
  | [] => []
  | [x] => x
  | x :: xs => x ++ '\n' :: '\n' :: joinPara xs

theorem splitPara_cons (c : Char) (rest : List Char)
    (h2 : ∀ r, c = '\n' → rest = '\n' :: r → False) :
    splitPara (c :: rest) = consHead c (splitPara rest) := by
  rw [splitPara.eq_def]
  split
  · rename_i r heq
    injection heq with e1 e2
    exact absurd (h2 r e1 e2) (fun hh => hh)
  · rename_i c2 r2 heq
    injection heq with e1 e2
    subst e1; subst e2
    rfl
  · rename_i heq
    cases heq

theorem splitPara_ne_nil (l : List Char) : splitPara l ≠ [] := by
  induction l using splitPara.induct with
  | case1 rest ih => simp [splitPara]
  | case2 c rest h2 ih =>
    rw [splitPara_cons c rest h2]
    cases hsp : splitPara rest with
    | nil => exact absurd hsp ih
    | cons p ps => simp [consHead]
  | case3 => simp [splitPara]

theorem joinPara_cons_ne {x : List Char} {xs : List (List Char)}
    (h : xs ≠ []) : joinPara (x :: xs) = x ++ '\n' :: '\n' :: joinPara xs := by
  cases xs with
  | nil => exact absurd rfl h
  | cons y ys => rfl

theorem joinPara_consHead (c : Char) {L : List (List Char)} (h : L ≠ []) :
    joinPara (consHead c L) = c :: joinPara L := by
  cases L with
  | nil => exact absurd rfl h
  | cons p ps =>
    cases ps with
    | nil => rfl
    | cons q qs =>
      rw [show consHead c (p :: q :: qs) = (c :: p) :: q :: qs from rfl]
      rw [joinPara_cons_ne (show (q :: qs : List (List Char)) ≠ [] by simp)]
      rw [joinPara_cons_ne (show (q :: qs : List (List Char)) ≠ [] by simp)]
      simp [List.cons_append]

theorem joinPara_splitPara (l : List Char) : joinPara (splitPara l) = l := by
  induction l using splitPara.induct with
  | case1 rest ih =>
    rw [show splitPara ('\n' :: '\n' :: rest) = [] :: splitPara rest from rfl]
    rw [joinPara_cons_ne (splitPara_ne_nil rest), ih]
    rfl
  | case2 c rest h2 ih =>
    rw [splitPara_cons c rest h2, joinPara_consHead c (splitPara_ne_nil rest),
      ih]
  | case3 => rfl

theorem splitPara_no_nl {l : List Char} (h : '\n' ∉ l) : splitPara l = [l] := by
  induction l with
  | nil => rfl
  | cons c rest ih =>
    have hc : ¬c = '\n' := fun hh => h (hh ▸ List.mem_cons_self c rest)
    rw [splitPara_cons c rest (fun r hcc _ => hc hcc),
      ih (fun hh => h (List.mem_cons_of_mem c hh))]
    rfl

theorem splitPara_append_nl {a : List Char} (b : List Char) (h : '\n' ∉ a) :
    splitPara (a ++ '\n' :: '\n' :: b) = a :: splitPara b := by
  induction a with
  | nil =>
    rw [List.nil_append]
    rfl
  | cons c a2 ih =>
    have hc : ¬c = '\n' := fun hh => h (hh ▸ List.mem_cons_self c a2)
    rw [List.cons_append, splitPara_cons c _ (fun r hcc _ => hc hcc),
      ih (fun hh => h (List.mem_cons_of_mem c hh))]
    rfl

/-! ## A model of CPython `textwrap` (as invoked by `_split_long_text`) -/

/-- Python `str.expandtabs()` with the default tab size of 8, tracking the
current column (reset by `\n` and `\r`). -/
def expandTabsAux : Nat → List Char → List Char
  | _, [] => []
  | col, c :: rest =>
    if c = '\t' then
      List.replicate (8 - col % 8) ' ' ++ expandTabsAux (col + (8 - col % 8)) rest
    else if c = '\n' ∨ c = '\r' then c :: expandTabsAux 0 rest
    else c :: expandTabsAux (col + 1) rest

/-- `textwrap.TextWrapper._munge_whitespace`: expand tabs, then translate
each of `\t\n\x0b\x0c\r` to a space. -/
def munge (l : List Char) : List Char :=
  (expandTabsAux 0 l).map (fun c =>
    if c = '\t' ∨ c = '\n' ∨ c = '\x0b' ∨ c = '\x0c' ∨ c = '\r' then ' '
    else c)

/-- Chunk splitting: with `break_on_hyphens=False`, `textwrap` splits the
munged text with `re.split(r'(\s+)')` and drops empty pieces, i.e. it cuts
the text into maximal runs of whitespace / non-whitespace characters. -/
def chunksAux (cur : List Char) (curWs : Bool) : List Char → List (List Char)
  | [] => [cur.reverse]
  | c :: rest =>
    if isPyWs c = curWs then chunksAux (c :: cur) curWs rest
    else cur.reverse :: chunksAux [c] (isPyWs c) rest

def chunksOf : List Char → List (List Char)
  | [] => []
  | c :: rest => chunksAux [c] (isPyWs c) rest

/-- `chunk.strip() == ''` for a nonempty chunk: all characters whitespace. -/
def isWsChunk (c : List Char) : Bool := c.all isPyWs

def lenSum (cs : List (List Char)) : Nat := (cs.map List.length).sum

/-- The greedy inner loop of `_wrap_chunks`: move chunks onto the current
line while the accumulated length stays within the width. -/
def takeFit (width : Nat) : Nat → List (List Char) → (List (List Char) × List (List Char))
  | _, [] => ([], [])
  | cur, c :: cs =>
    if cur + c.length ≤ width then
      let (t, r) := takeFit width (cur + c.length) cs
      (c :: t, r)
    else ([], c :: cs)

/-- CPython `textwrap.TextWrapper._wrap_chunks` specialised to
`drop_whitespace=True`, empty indents and `max_lines=None`; `breakLong` is
`break_long_words`.  `first` records whether no line has been emitted yet
(Python's `lines` being empty).  Each outer iteration consumes a chunk or
shortens the first chunk, so the fuel `lenSum chunks + length chunks + 1`
never runs out.  (When `breakLong` is true, the `break_on_hyphens`
refinement of `_handle_long_word` is omitted; no property proved below
evaluates that branch.) -/
def wrapChunksAux (width : Nat) (breakLong : Bool) :
    Nat → Bool → List (List Char) → List (List Char)
  | 0, _, _ => []
  | _ + 1, _, [] => []
  | fuel + 1, first, chunks =>
    let chunks1 :=
      match first, chunks with
      | false, c :: cs => if isWsChunk c then cs else chunks
      | _, _ => chunks
    match chunks1 with
    | [] => []
    | _ :: _ =>
      let (cur, rest) := takeFit width 0 chunks1
      let (cur2, rest2) :=
        match rest with
        | c :: cs =>
          if width < c.length then
            if breakLong then
              let spaceLeft := if width < 1 then 1 else width - lenSum cur
              (cur ++ [c.take spaceLeft], c.drop spaceLeft :: cs)
            else if cur = [] then ([c], cs) else (cur, rest)
          else (cur, rest)
        | [] => (cur, rest)
      let cur3 :=
        match cur2.getLast? with
        | some lc => if isWsChunk lc then cur2.dropLast else cur2
        | none => cur2
      if cur3 = [] then wrapChunksAux width breakLong fuel first rest2
      else cur3.flatten :: wrapChunksAux width breakLong fuel false rest2

/-- `textwrap.wrap(text, width=w, break_long_words=bl, break_on_hyphens=False)`. -/
def pyWrap (width : Nat) (breakLong : Bool) (text : List Char) :
    List (List Char) :=
  let chunks := chunksOf (munge text)
  wrapChunksAux width breakLong (lenSum chunks + chunks.length + 1) true chunks

/-- readwise.py lines 180-211, `Readwise._split_long_text`: texts of at most
8000 characters pass through unchanged; longer ones are split at paragraph
boundaries (`"\n\n"`), and any paragraph still longer than 8000 characters
is word-wrapped via `textwrap.wrap(para, width=8000,
break_long_words=False, break_on_hyphens=False)`. -/
def split_long_text (text : List Char) : List (List Char) :=
  if text.length ≤ 8000 then [text]
  else
    (splitPara text).flatMap (fun para =>
      if para.length ≤ 8000 then [para] else pyWrap 8000 false para)

theorem split_long_text_eval_short : split_long_text "ab".data = ["ab".data] := by decide

theorem expandTabsAux_id {l : List Char} (h : '\t' ∉ l) : ∀ col,
    expandTabsAux col l = l := by
  induction l with
  | nil => intro col; rfl
  | cons c rest ih =>
    intro col
    have hc : ¬c = '\t' := fun hh => h (hh ▸ List.mem_cons_self c rest)
    have hrest : '\t' ∉ rest := fun hh => h (List.mem_cons_of_mem c hh)
    by_cases hcr : c = '\n' ∨ c = '\r' <;>
      simp [expandTabsAux, hc, hcr, ih hrest]

theorem munge_id {l : List Char} (h : ∀ c ∈ l, isPyWs c = false) :
    munge l = l := by
  have ht : '\t' ∉ l := by
    intro hm
    have := h _ hm
    exact absurd this (by decide)
  unfold munge
  rw [expandTabsAux_id ht 0]
  have hmap : ∀ c ∈ l,
      (if c = '\t' ∨ c = '\n' ∨ c = '\x0b' ∨ c = '\x0c' ∨ c = '\r' then ' '
        else c) = c := by
    intro c hc
    have hw := h c hc
    rw [if_neg ?_]
    rintro (rfl | rfl | rfl | rfl | rfl) <;> exact absurd hw (by decide)
  calc l.map _ = l.map id := List.map_congr_left hmap
    _ = l := List.map_id l

theorem chunksAux_all_false {rest : List Char}
    (h : ∀ c ∈ rest, isPyWs c = false) : ∀ acc,
    chunksAux acc false rest = [acc.reverse ++ rest] := by
  induction rest with
  | nil => intro acc; simp [chunksAux]
  | cons d r ih =>
    intro acc
    have hd : isPyWs d = false := h d (List.mem_cons_self d r)
    rw [show chunksAux acc false (d :: r) = chunksAux (d :: acc) false r from by
      simp [chunksAux, hd]]
    rw [ih (fun c hc => h c (List.mem_cons_of_mem d hc)) (d :: acc)]
    simp

theorem chunksOf_single {l : List Char} (hne : l ≠ [])
    (h : ∀ c ∈ l, isPyWs c = false) : chunksOf l = [l] := by
  cases l with
  | nil => exact absurd rfl hne
  | cons c rest =>
    have hc : isPyWs c = false := h c (List.mem_cons_self c rest)
    rw [show chunksOf (c :: rest) = chunksAux [c] (isPyWs c) rest from rfl, hc,
      chunksAux_all_false (fun d hd => h d (List.mem_cons_of_mem c hd)) [c]]
    rfl

theorem wrapChunksAux_nil (w : Nat) (b : Bool) (fuel : Nat) (first : Bool) :
    wrapChunksAux w b fuel first [] = [] := by
  cases fuel <;> rfl

theorem pyWrap_long_word {l : List Char} (hne : l ≠ [])
    (h : ∀ c ∈ l, isPyWs c = false) (hw : 8000 < l.length) :
    pyWrap 8000 false l = [l] := by
  unfold pyWrap
  rw [munge_id h, chunksOf_single hne h]
  show wrapChunksAux 8000 false (lenSum [l] + [l].length + 1) true [l] = [l]
  have hfit : takeFit 8000 0 [l] = ([], [l]) := by
    unfold takeFit
    rw [if_neg (by omega : ¬(0 + l.length ≤ 8000))]
  have hws : isWsChunk l = false := by
    cases l with
    | nil => exact absurd rfl hne
    | cons c cs => simp [isWsChunk, List.all_cons, h c (List.mem_cons_self c cs)]
  have hlen : lenSum [l] + [l].length + 1 = (l.length + 1) + 1 := by
    simp [lenSum]
  rw [hlen]
  cases l with
  | nil => exact absurd rfl hne
  | cons c cs =>
    simp only [wrapChunksAux, hfit, hws]
    simp only [List.length_cons] at hw
    simp [hw, wrapChunksAux_nil, hws]

theorem not_mem_replicate_of_ne {x a : Char} {n : Nat} (h : ¬x = a) :
    x ∉ List.replicate n a := by
  rw [List.mem_replicate]
  rintro ⟨-, hx⟩
  exact h hx

theorem replicate_ne_nil_of_pos {a : Char} {n : Nat} (h : 0 < n) :
    List.replicate n a ≠ [] := by
  intro hh
  have := List.length_replicate n a
  rw [hh] at this
  simp at this
  omega

theorem split_long_text_long_word :
    split_long_text (List.replicate 8001 'a') = [List.replicate 8001 'a'] := by
  unfold split_long_text
  rw [if_neg (by rw [List.length_replicate]; omega)]
  rw [splitPara_no_nl (not_mem_replicate_of_ne (by decide))]
  simp only [List.flatMap_cons, List.flatMap_nil, List.append_nil]
  rw [if_neg (by rw [List.length_replicate]; omega)]
  exact pyWrap_long_word (replicate_ne_nil_of_pos (by omega))
    (fun c hc => by rw [List.eq_of_mem_replicate hc]; decide)
    (by rw [List.length_replicate]; omega)

/-- C1 counterexample: for the 8001-character text consisting of a single
unbreakable word, `_split_long_text` returns the text as one segment of
length 8001, violating the claimed bound of 8000 (with
`break_long_words=False`, `textwrap.wrap` keeps an over-long word whole). -/
theorem C1_counterexample :
    8000 < (List.replicate 8001 'a').length ∧
      ¬((∀ seg ∈ split_long_text (List.replicate 8001 'a'),
            seg.length ≤ 8000) ∧
          joinPara (split_long_text (List.replicate 8001 'a')) =
            List.replicate 8001 'a') := by
  refine ⟨by rw [List.length_replicate]; omega, ?_⟩
  rintro ⟨hlen, -⟩
  have := hlen (List.replicate 8001 'a')
    (by rw [split_long_text_long_word]; exact List.mem_cons_self _ _)
  rw [List.length_replicate] at this
  omega

/-- C1 (amended): for every text longer than the 8000-character safety
threshold *whose double-newline-separated paragraphs each fit within the
threshold*, the segments produced by `_split_long_text` are exactly the
paragraphs: each has length at most 8000 and rejoining them with `"\n\n"`
reconstructs the original text.  (The paragraph condition is forced by
`C1_counterexample`: an over-long paragraph without whitespace yields a
segment above the threshold, and wrapping loses the whitespace at the break
points, so rejoining would not reconstruct the text either.) -/
theorem C1_theorem (text : List Char) (hlen : 8000 < text.length)
    (hpar : ∀ p ∈ splitPara text, p.length ≤ 8000) :
    (∀ seg ∈ split_long_text text, seg.length ≤ 8000) ∧
      joinPara (split_long_text text) = text := by
  have heq : split_long_text text = splitPara text := by
    unfold split_long_text
    rw [if_neg (by omega)]
    have hgen : ∀ L : List (List Char), (∀ p ∈ L, p.length ≤ 8000) →
        (L.flatMap fun para =>
          if para.length ≤ 8000 then [para] else pyWrap 8000 false para) = L := by
      intro L
      induction L with
      | nil => intro _; rfl
      | cons p ps ih =>
        intro hL
        rw [List.flatMap_cons, if_pos (hL p (List.mem_cons_self p ps)),
          ih (fun q hq => hL q (List.mem_cons_of_mem p hq))]
        rfl
    exact hgen _ hpar
  rw [heq]
  exact ⟨hpar, joinPara_splitPara text⟩

/-- C1 witness: the amended theorem applied to a 9002-character text made of
two 4500-character paragraphs. -/
theorem C1_witness :
    (8000 <
        (List.replicate 4500 'a' ++
          '\n' :: '\n' :: List.replicate 4500 'b').length ∧
      ∀ p ∈ splitPara (List.replicate 4500 'a' ++
          '\n' :: '\n' :: List.replicate 4500 'b'), p.length ≤ 8000) ∧
      ((∀ seg ∈ split_long_text (List.replicate 4500 'a' ++
            '\n' :: '\n' :: List.replicate 4500 'b'), seg.length ≤ 8000) ∧
        joinPara (split_long_text (List.replicate 4500 'a' ++
            '\n' :: '\n' :: List.replicate 4500 'b')) =
          List.replicate 4500 'a' ++ '\n' :: '\n' :: List.replicate 4500 'b') := by
  have hsp : splitPara (List.replicate 4500 'a' ++
      '\n' :: '\n' :: List.replicate 4500 'b') =
      [List.replicate 4500 'a', List.replicate 4500 'b'] := by
    rw [splitPara_append_nl _ (not_mem_replicate_of_ne (by decide)),
      splitPara_no_nl (not_mem_replicate_of_ne (by decide))]
  have hlen : 8000 < (List.replicate 4500 'a' ++
      '\n' :: '\n' :: List.replicate 4500 'b').length := by
    rw [List.length_append, List.length_replicate, List.length_cons,
      List.length_cons, List.length_replicate]
    omega
  have hpar : ∀ p ∈ splitPara (List.replicate 4500 'a' ++
      '\n' :: '\n' :: List.replicate 4500 'b'), p.length ≤ 8000 := by
    rw [hsp]
    intro p hp
    rcases List.mem_cons.mp hp with rfl | hp2
    · rw [List.length_replicate]; omega
    rcases List.mem_cons.mp hp2 with rfl | hp3
    · rw [List.length_replicate]; omega
    · exact absurd hp3 (List.not_mem_nil p)
  exact ⟨⟨hlen, hpar⟩, C1_theorem _ hlen hpar⟩

/-! ## The Readwise upload side (`readwise.py`) -/

/-- Python values as they appear in serialised highlight dictionaries. -/
inductive PyVal where
  | pstr (s : List Char)
  | pint (n : Int)
  | plist (n : Nat)
  | pnone
deriving DecidableEq

/-- Python truthiness of a dictionary value (`plist` carries only the length
of the underlying list, which determines its truthiness). -/
def pyTruthy : PyVal → Bool
  | .pstr s => s ≠ []
  | .pint n => n ≠ 0
  | .plist n => n ≠ 0
  | .pnone => false

/-- The Zotero annotation record consumed by the Readwise mapper.
Modelled from the spec: `zotero.py`, which defines `ZoteroItem`, is not among
the source files; spec §4.4 lists its fields `{text, title, creators, tags,
comment (HTML, already converted to Markdown), page_label, document_type,
attachment_url, annotation_url, source_url, annotated_at}`. -/
structure ZoteroItem where
  text : List Char
  title : Option (List Char)
  creators : Option (List Char)
  tags : List (List Char)
  comment : Option (List Char)
  page_label : Option (List Char)
  document_type : Option (List Char)
  attachment_url : Option (List Char)
  annotation_url : Option (List Char)
  source_url : Option (List Char)
  annotated_at : Option (List Char)

/-- readwise.py lines 31-44, dataclass `ReadwiseHighlight` (fields in
declaration order; `location` is `Union[int, None]` with default `0`). -/
structure ReadwiseHighlight where
  text : List Char
  title : Option (List Char)
  author : Option (List Char)
  image_url : Option (List Char)
  source_url : Option (List Char)
  source_type : Option (List Char)
  category : Option (List Char)
  note : Option (List Char)
  location : Option Int
  location_type : Option (List Char)
  highlighted_at : Option (List Char)
  highlight_url : Option (List Char)

/-- Truthiness of the `location` field (`int` or `None`). -/
def locTruthy : Option Int → Bool
  | some n => n ≠ 0
  | none => false

/-- readwise.py lines 46-48, `__post_init__`:
`if not self.location: self.location = None`. -/
def postInit (h : ReadwiseHighlight) : ReadwiseHighlight :=
  if locTruthy h.location then h else { h with location := none }

/-- The dataclass constructor followed by `__post_init__`. -/
def mkReadwiseHighlight (text : List Char) (title author image_url source_url
    source_type category note : Option (List Char)) (location : Option Int)
    (location_type highlighted_at highlight_url : Option (List Char)) :
    ReadwiseHighlight :=
  postInit {
    text := text, title := title, author := author, image_url := image_url,
    source_url := source_url, source_type := source_type,
    category := category, note := note, location := location,
    location_type := location_type, highlighted_at := highlighted_at,
    highlight_url := highlight_url }

def optVal : Option (List Char) → PyVal
  | none => .pnone
  | some s => .pstr s

def locVal : Option Int → PyVal
  | none => .pnone
  | some n => .pint n

/-- `self.__dict__.items()` of a `ReadwiseHighlight`, in field declaration
order. -/
def toDict (h : ReadwiseHighlight) : List (String × PyVal) :=
  [("text", .pstr h.text), ("title", optVal h.title),
   ("author", optVal h.author), ("image_url", optVal h.image_url),
   ("source_url", optVal h.source_url), ("source_type", optVal h.source_type),
   ("category", optVal h.category), ("note", optVal h.note),
   ("location", locVal h.location), ("location_type", optVal h.location_type),
   ("highlighted_at", optVal h.highlighted_at),
   ("highlight_url", optVal h.highlight_url)]

/-- readwise.py lines 50-51, `get_nonempty_params`:
`{k: v for k, v in self.__dict__.items() if v}`. -/
def get_nonempty_params (h : ReadwiseHighlight) : List (String × PyVal) :=
  (toDict h).filter (fun kv => pyTruthy kv.2)

/-- helper.py line 19, `sanitize_tag`: `tag.strip().replace(" ", "_")`. -/
def sanitize_tag (tag : List Char) : List Char :=
  (pyStrip tag).map (fun c => if c = ' ' then '_' else c)

def joinSpace : List (List Char) → List Char
  | [] => []
  | [x] => x
  | x :: xs => x ++ ' ' :: joinSpace xs

/-- readwise.py lines 79-81, `convert_tags_to_readwise_format`:
`" ".join([f".{sanitize_tag(t.lower())}" for t in tags])` (`str.lower`
modelled on ASCII via `Char.toLower`). -/
def convert_tags_to_readwise_format (tags : List (List Char)) : List Char :=
  joinSpace (tags.map (fun t => '.' :: sanitize_tag (t.map Char.toLower)))

/-- readwise.py lines 83-91, `format_readwise_note`. -/
def format_readwise_note (tags : List (List Char))
    (comment : Option (List Char)) : Option (List Char) :=
  let rw_tags := convert_tags_to_readwise_format tags
  let note1 : List Char := if rw_tags ≠ [] then rw_tags ++ ['\n'] else []
  let note2 := note1 ++
    (match comment with
     | some c => if c ≠ [] then c else []
     | none => [])
  if note2 ≠ [] then some note2 else none

/-- `url.split("/")[-1]`: the part after the last slash. -/
def lastSlashPart (u : List Char) : List Char :=
  u.foldl (fun acc c => if c = '/' then [] else acc ++ [c]) []

/-- Python `str.isnumeric` restricted to ASCII digit strings (the Unicode
numeric categories are not modelled; no claim depends on them). -/
def pyIsNumeric (s : List Char) : Bool := s ≠ [] && s.all Char.isDigit

/-- Python `int` on a digit string. -/
def digitsToNat (s : List Char) : Nat :=
  s.foldl (fun acc c => acc * 10 + (c.toNat - 48)) 0

/-- readwise.py lines 213-242, `_create_highlight_for_segment`.  The only
deviation: when `attachment_url` is set but `annotation_url` is `None`,
Python would raise `AttributeError` (caught by the batch loop, see the C7
model); here the missing url is read as the empty string. -/
def create_highlight_for_segment (annot : ZoteroItem)
    (segment_text segment_note : List Char) : ReadwiseHighlight :=
  let location : Int :=
    match annot.page_label with
    | some s => if pyIsNumeric s then (digitsToNat s : Int) else 0
    | none => 0
  let highlight_url : Option (List Char) :=
    match annot.attachment_url with
    | some au =>
      some ("zotero://open-pdf/library/items/".data ++ lastSlashPart au ++
        "?page=".data ++ (Nat.repr location.toNat).data ++
        "%&annotation=".data ++ lastSlashPart ((annot.annotation_url).getD []))
    | none => none
  mkReadwiseHighlight segment_text annot.title annot.creators none
    annot.source_url none
    (some (if annot.document_type ≠ some "book".data
      then "articles".data else "books".data))
    (some segment_note) (some location) (some "page".data) annot.annotated_at
    (match highlight_url with
     | none => annot.annotation_url
     | some u => some u)

/-- `f"(part {i}/{n}) "`. -/
def partTag (i n : Nat) : List Char :=
  "(part ".data ++ (Nat.repr i).data ++ "/".data ++ (Nat.repr n).data ++
    ") ".data

/-- The per-annotation body of the upload loop, readwise.py lines 140-157:
split the text, then build one highlight per segment, prefixing the note
with `(part i/n) ` when more than one segment was produced; the note itself
is `annot.comment or ""`. -/
def process_annot (annot : ZoteroItem) : List ReadwiseHighlight :=
  let segments := split_long_text annot.text
  segments.enum.map (fun p =>
    let segment_note := annot.comment.getD []
    let segment_note :=
      if segments.length > 1 then partTag (p.1 + 1) segments.length ++ segment_note
      else segment_note
    create_highlight_for_segment annot p.2 segment_note)

/-- `ZoteroItem.get_nonempty_params`.  Modelled from the spec: `zotero.py`
is not among the source files; by analogy with `ReadwiseHighlight`, the
record's fields are serialised in declaration order with falsy values
dropped (the `tags` list is represented by its length). -/
def annot_nonempty_params (a : ZoteroItem) : List (String × PyVal) :=
  [("text", PyVal.pstr a.text), ("title", optVal a.title),
   ("creators", optVal a.creators), ("tags", PyVal.plist a.tags.length),
   ("comment", optVal a.comment), ("page_label", optVal a.page_label),
   ("document_type", optVal a.document_type),
   ("attachment_url", optVal a.attachment_url),
   ("annotation_url", optVal a.annotation_url),
   ("source_url", optVal a.source_url),
   ("annotated_at", optVal a.annotated_at)].filter (fun kv => pyTruthy kv.2)

/-- The batching loop of readwise.py lines 137-162: per annotation, run the
body inside `try`; on success extend `rw_highlights` with the produced
records, on any exception append the annotation's serialised record to
`failed_highlights` and continue with the next annotation.  The body is
abstracted as an `Except`-valued function `f`, modelling the fact that any
Python exception raised while processing one annotation is caught. -/
def uploadLoop {ε : Type} (f : ZoteroItem → Except ε (List (List (String × PyVal)))) :
    List ZoteroItem → List (List (String × PyVal)) × List (List (String × PyVal))
  | [] => ([], [])
  | a :: rest =>
    match f a with
    | .ok hs =>
      let (h, fl) := uploadLoop f rest
      (hs ++ h, fl)
    | .error _ =>
      let (h, fl) := uploadLoop f rest
      (h, annot_nonempty_params a :: fl)

/-- The concrete (exception-free) per-annotation body: the serialised
parameter dictionaries of the produced highlights. -/
def process_annot_params (annot : ZoteroItem) : List (List (String × PyVal)) :=
  (process_annot annot).map get_nonempty_params

/-! ## Persisted last-sync version (`helper.py` lines 423-435) -/

/-- Python `int(str)`: strip whitespace, optional sign, then a nonempty
digit string (Python's underscore digit separators are not modelled; no
claim depends on which strings parse). -/
def pyInt (s : List Char) : Option Int :=
  match pyStrip s with
  | '+' :: ds =>
    if ds ≠ [] ∧ ds.all Char.isDigit then some (digitsToNat ds : Int) else none
  | '-' :: ds =>
    if ds ≠ [] ∧ ds.all Char.isDigit then some (-(digitsToNat ds : Int)) else none
  | ds =>
    if ds ≠ [] ∧ ds.all Char.isDigit then some (digitsToNat ds : Int) else none

/-- helper.py lines 423-435, `read_library_version`, with the filesystem
modelled as the optional content of the `since` file: `none` is the
`FileNotFoundError` branch, an unparsable content the `ValueError` branch;
both print a message and fall through to `return 0`. -/
def read_library_version (since_file : Option (List Char)) : Int :=
  match since_file with
  | none => 0
  | some content =>
    match pyInt content with
    | some n => n
    | none => 0

theorem mk_note (text : List Char) (title author image_url source_url
    source_type category note : Option (List Char)) (location : Option Int)
    (location_type highlighted_at highlight_url : Option (List Char)) :
    (mkReadwiseHighlight text title author image_url source_url source_type
      category note location location_type highlighted_at highlight_url).note =
      note := by
  unfold mkReadwiseHighlight postInit
  split <;> rfl

theorem mk_text (text : List Char) (title author image_url source_url
    source_type category note : Option (List Char)) (location : Option Int)
    (location_type highlighted_at highlight_url : Option (List Char)) :
    (mkReadwiseHighlight text title author image_url source_url source_type
      category note location location_type highlighted_at highlight_url).text =
      text := by
  unfold mkReadwiseHighlight postInit
  split <;> rfl

theorem mk_location (text : List Char) (title author image_url source_url
    source_type category note : Option (List Char)) (location : Option Int)
    (location_type highlighted_at highlight_url : Option (List Char)) :
    (mkReadwiseHighlight text title author image_url source_url source_type
      category note location location_type highlighted_at
      highlight_url).location =
      if locTruthy location then location else none := by
  unfold mkReadwiseHighlight postInit
  split <;> rfl

theorem params_key_all (h : ReadwiseHighlight) (key : String)
    (hcheck : ∀ kv ∈ toDict h, kv.1 = key → pyTruthy kv.2 = false) :
    (get_nonempty_params h).all (fun kv => !(kv.1 == key)) = true := by
  rw [List.all_eq_true]
  intro kv hkv
  obtain ⟨hmem, htr⟩ := List.mem_filter.mp hkv
  by_cases hne : kv.1 = key
  · rw [hcheck kv hmem hne] at htr
    exact Bool.noConfusion htr
  · simp [hne]

theorem mem_params (h : ReadwiseHighlight) (kv : String × PyVal) :
    kv ∈ get_nonempty_params h ↔ kv ∈ toDict h ∧ pyTruthy kv.2 = true :=
  List.mem_filter

/-- A concrete annotation: one tag, a comment, a short text. -/
def tagAnnot : ZoteroItem where
  text := "t".data
  title := none
  creators := none
  tags := ["ml".data]
  comment := some "c".data
  page_label := none
  document_type := none
  attachment_url := none
  annotation_url := none
  source_url := none
  annotated_at := none

/-- A concrete annotation whose page label is the numeric string "0". -/
def zeroPageAnnot : ZoteroItem where
  text := "t".data
  title := none
  creators := none
  tags := []
  comment := none
  page_label := some "0".data
  document_type := none
  attachment_url := none
  annotation_url := none
  source_url := none
  annotated_at := none

/-- A concrete annotation whose page label is the numeric string "12". -/
def numPageAnnot : ZoteroItem where
  text := "t".data
  title := none
  creators := none
  tags := []
  comment := none
  page_label := some "12".data
  document_type := none
  attachment_url := none
  annotation_url := none
  source_url := none
  annotated_at := none

/-- A concrete annotation with nonempty text. -/
def okAnnot : ZoteroItem where
  text := "x".data
  title := none
  creators := none
  tags := []
  comment := none
  page_label := none
  document_type := none
  attachment_url := none
  annotation_url := none
  source_url := none
  annotated_at := none

/-- A concrete annotation with empty text (made to fail below). -/
def badAnnot : ZoteroItem where
  text := []
  title := none
  creators := none
  tags := []
  comment := none
  page_label := none
  document_type := none
  attachment_url := none
  annotation_url := none
  source_url := none
  annotated_at := none

/-- C3 (amended): in the upload path the note of every produced highlight is
exactly the annotation's Markdown comment (tags are *not* included —
`format_readwise_note` is not called by
`post_zotero_annotations_to_readwise`), and when the text is split into more
than one segment each note is prefixed with `(part i/n) `. -/
theorem C3_theorem (annot : ZoteroItem) :
    (process_annot annot).map (fun h => h.note) =
      (split_long_text annot.text).enum.map (fun p =>
        some ((if (split_long_text annot.text).length > 1
          then partTag (p.1 + 1) (split_long_text annot.text).length
          else []) ++ annot.comment.getD [])) := by
  unfold process_annot
  rw [List.map_map]
  refine List.map_congr_left ?_
  intro p _
  show (create_highlight_for_segment annot p.2 _).note = _
  unfold create_highlight_for_segment
  rw [mk_note]
  by_cases hgt : (split_long_text annot.text).length > 1 <;> simp [hgt]

/-- C3 counterexample: for an annotation with one tag and a comment, the
note of the single produced highlight is just the comment, not the
spec's tag-tokens-plus-comment rendering (which `format_readwise_note`
would produce). -/
theorem C3_counterexample :
    (process_annot tagAnnot).map (fun h => h.note) = [some "c".data] ∧
      format_readwise_note tagAnnot.tags tagAnnot.comment =
        some ".ml\nc".data ∧
      some "c".data ≠ some ".ml\nc".data :=
  ⟨by decide, by decide, by decide⟩

theorem create_location (annot : ZoteroItem) (seg note : List Char) :
    (create_highlight_for_segment annot seg note).location =
      (match annot.page_label with
       | some s =>
         if pyIsNumeric s = true ∧ digitsToNat s ≠ 0
           then some (digitsToNat s : Int) else none
       | none => none) := by
  unfold create_highlight_for_segment
  rw [mk_location]
  cases hp : annot.page_label with
  | none => simp [locTruthy]
  | some s =>
    by_cases hn : pyIsNumeric s = true
    · by_cases hz : digitsToNat s = 0 <;>
        simp [hn, hz, locTruthy]
    · simp [hn, locTruthy]

theorem create_location_toDict (annot : ZoteroItem) (seg note : List Char) :
    ∀ kv ∈ toDict (create_highlight_for_segment annot seg note),
      kv.1 = "location" → kv.2 = locVal (create_highlight_for_segment annot seg note).location := by
  intro kv hkv hkey
  set h := create_highlight_for_segment annot seg note
  simp only [toDict, List.mem_cons, List.not_mem_nil, or_false] at hkv
  rcases hkv with rfl | rfl | rfl | rfl | rfl | rfl | rfl | rfl | rfl | rfl |
    rfl | rfl <;> first
    | rfl
    | exact absurd hkey (by simp)

/-- C6 (amended): if the page label is numeric *with a nonzero value*, the
record's location is that number and the `location` key is serialised;
otherwise — including the numeric page label `"0"`, whose falsy location is
reset to `None` by `__post_init__` — the location is `None` and the key is
omitted from the serialised record. -/
theorem C6_theorem (annot : ZoteroItem) (seg note : List Char) :
    (∀ s, annot.page_label = some s → pyIsNumeric s = true →
      0 < digitsToNat s →
      (create_highlight_for_segment annot seg note).location =
          some (digitsToNat s : Int) ∧
        ("location", PyVal.pint (digitsToNat s : Int)) ∈
          get_nonempty_params (create_highlight_for_segment annot seg note)) ∧
    ((match annot.page_label with
      | some s => pyIsNumeric s = false ∨ digitsToNat s = 0
      | none => True) →
      (create_highlight_for_segment annot seg note).location = none ∧
        (get_nonempty_params
          (create_highlight_for_segment annot seg note)).all
          (fun kv => !(kv.1 == "location")) = true) := by
  constructor
  · intro s hs hnum hpos
    have hloc : (create_highlight_for_segment annot seg note).location =
        some (digitsToNat s : Int) := by
      rw [create_location, hs]
      exact if_pos ⟨hnum, by omega⟩
    refine ⟨hloc, ?_⟩
    rw [mem_params]
    constructor
    · have : ("location", PyVal.pint (digitsToNat s : Int)) =
          ("location", locVal (create_highlight_for_segment annot seg
            note).location) := by
        rw [hloc]; rfl
      rw [this]
      simp [toDict]
    · show pyTruthy (PyVal.pint (digitsToNat s : Int)) = true
      simp [pyTruthy]
      omega
  · intro hcase
    have hloc : (create_highlight_for_segment annot seg note).location =
        none := by
      rw [create_location]
      cases hp : annot.page_label with
      | none => rfl
      | some s =>
        rw [hp] at hcase
        rcases hcase with hnn | hz
        · simp [hnn]
        · simp [hz]
    refine ⟨hloc, ?_⟩
    refine params_key_all _ _ ?_
    intro kv hkv hkey
    have := create_location_toDict annot seg note kv hkv hkey
    rw [this, hloc]
    rfl

/-- C6 counterexample: the page label `"0"` is numeric, yet the produced
record's location is `None` (not `0`): `__post_init__` replaces the falsy
location `0` by `None`, so the "numeric page label becomes the location"
half of the claim fails. -/
theorem C6_counterexample :
    pyIsNumeric "0".data = true ∧
      digitsToNat "0".data = 0 ∧
      (create_highlight_for_segment zeroPageAnnot "t".data []).location =
        none ∧
      (none : Option Int) ≠ some ((0 : Nat) : Int) :=
  ⟨by decide, by decide, by decide, by decide⟩

/-- C6 witness: the amended theorem applied to a nonzero numeric page label
(`"12"`) and to an absent page label. -/
theorem C6_witness :
    (create_highlight_for_segment numPageAnnot "t".data []).location =
        some (digitsToNat "12".data : Int) ∧
      ("location", PyVal.pint (digitsToNat "12".data : Int)) ∈
        get_nonempty_params
          (create_highlight_for_segment numPageAnnot "t".data []) :=
  (C6_theorem numPageAnnot "t".data []).1 "12".data rfl (by decide)
    (by decide)

theorem uploadLoop_spec {ε : Type}
    (f : ZoteroItem → Except ε (List (List (String × PyVal))))
    (annots : List ZoteroItem) :
    uploadLoop f annots =
      (annots.flatMap (fun a =>
          match f a with
          | .ok hs => hs
          | .error _ => []),
        (annots.filter (fun a =>
          match f a with
          | .ok _ => false
          | .error _ => true)).map annot_nonempty_params) := by
  induction annots with
  | nil => rfl
  | cons a rest ih =>
    cases hfa : f a with
    | ok hs =>
      simp [uploadLoop, hfa, ih, List.flatMap_cons, List.filter_cons]
    | error e =>
      simp [uploadLoop, hfa, ih, List.flatMap_cons, List.filter_cons]

/-- C7: the batching loop processes every annotation even when some fail:
the highlights are the concatenated successes over the *whole* batch, each
failing annotation's serialised record is appended to the failed-items
collection (in order), and in particular the record of any annotation whose
processing raises an error is in that collection — no failure aborts the
batch.  Failure of the per-annotation body is modelled by an arbitrary
`Except`-valued body `f`, since the `try/except` at readwise.py lines
138-162 catches every exception. -/
theorem C7_theorem {ε : Type}
    (f : ZoteroItem → Except ε (List (List (String × PyVal))))
    (annots : List ZoteroItem) :
    uploadLoop f annots =
      (annots.flatMap (fun a =>
          match f a with
          | .ok hs => hs
          | .error _ => []),
        (annots.filter (fun a =>
          match f a with
          | .ok _ => false
          | .error _ => true)).map annot_nonempty_params) ∧
    ∀ a, a ∈ annots → (∃ e, f a = .error e) →
      annot_nonempty_params a ∈ (uploadLoop f annots).2 := by
  refine ⟨uploadLoop_spec f annots, ?_⟩
  intro a ha ⟨e, he⟩
  rw [uploadLoop_spec f annots]
  refine List.mem_map_of_mem annot_nonempty_params ?_
  rw [List.mem_filter]
  exact ⟨ha, by rw [he]⟩

/-- C7 witness: a two-annotation batch in which processing the second
raises; its record lands in the failed-items list while the batch still
produces the first annotation's highlights. -/
theorem C7_witness :
    annot_nonempty_params badAnnot ∈
      (uploadLoop (fun a =>
          if a.text = [] then Except.error ()
          else Except.ok [annot_nonempty_params a])
        [okAnnot, badAnnot]).2 :=
  (C7_theorem (fun a =>
      if a.text = [] then Except.error ()
      else Except.ok [annot_nonempty_params a]) [okAnnot, badAnnot]).2
    badAnnot (by simp) ⟨(), rfl⟩

/-- C9: after construction (`__post_init__`) the location is never `0`, the
serialised parameter dictionary of `get_nonempty_params` contains only
truthy values, and the `text`, `note` and `location` keys are omitted when
their values are empty. -/
theorem C9_theorem (text : List Char) (title author image_url source_url
    source_type category note : Option (List Char)) (location : Option Int)
    (location_type highlighted_at highlight_url : Option (List Char)) :
    (mkReadwiseHighlight text title author image_url source_url source_type
        category note location location_type highlighted_at
        highlight_url).location ≠ some 0 ∧
    (∀ kv ∈ get_nonempty_params (mkReadwiseHighlight text title author
        image_url source_url source_type category note location location_type
        highlighted_at highlight_url), pyTruthy kv.2 = true) ∧
    (text = [] → (get_nonempty_params (mkReadwiseHighlight text title author
        image_url source_url source_type category note location location_type
        highlighted_at highlight_url)).all
        (fun kv => !(kv.1 == "text")) = true) ∧
    (note = none ∨ note = some [] →
      (get_nonempty_params (mkReadwiseHighlight text title author image_url
        source_url source_type category note location location_type
        highlighted_at highlight_url)).all
        (fun kv => !(kv.1 == "note")) = true) ∧
    ((mkReadwiseHighlight text title author image_url source_url source_type
        category note location location_type highlighted_at
        highlight_url).location = none →
      (get_nonempty_params (mkReadwiseHighlight text title author image_url
        source_url source_type category note location location_type
        highlighted_at highlight_url)).all
        (fun kv => !(kv.1 == "location")) = true) := by
  set h := mkReadwiseHighlight text title author image_url source_url
    source_type category note location location_type highlighted_at
    highlight_url with hdef
  have htext : h.text = text := mk_text _ _ _ _ _ _ _ _ _ _ _ _
  have hnote : h.note = note := mk_note _ _ _ _ _ _ _ _ _ _ _ _
  have hlocn : h.location = if locTruthy location then location else none :=
    mk_location _ _ _ _ _ _ _ _ _ _ _ _
  refine ⟨?_, ?_, ?_, ?_, ?_⟩
  · rw [hlocn]
    by_cases ht : locTruthy location
    · rw [if_pos ht]
      cases location with
      | none => simp
      | some n =>
        simp only [locTruthy] at ht
        intro hcon
        injection hcon with hn
        rw [hn] at ht
        exact absurd ht (by decide)
    · rw [if_neg ht]
      simp
  · intro kv hkv
    exact ((mem_params h kv).mp hkv).2
  · intro hte
    refine params_key_all _ _ ?_
    intro kv hkv hkey
    simp only [toDict, List.mem_cons, List.not_mem_nil, or_false] at hkv
    rcases hkv with rfl | rfl | rfl | rfl | rfl | rfl | rfl | rfl | rfl |
      rfl | rfl | rfl
    · exact show pyTruthy (PyVal.pstr h.text) = false by
        simp [htext, hte, pyTruthy]
    all_goals exact absurd hkey (by simp)
  · intro hno
    refine params_key_all _ _ ?_
    intro kv hkv hkey
    simp only [toDict, List.mem_cons, List.not_mem_nil, or_false] at hkv
    rcases hkv with rfl | rfl | rfl | rfl | rfl | rfl | rfl | rfl | rfl |
      rfl | rfl | rfl
    on_goal 8 =>
      exact show pyTruthy (optVal h.note) = false by
        rcases hno with rfl | rfl <;> simp [hnote, pyTruthy, optVal]
    all_goals exact absurd hkey (by simp)
  · intro hlnone
    refine params_key_all _ _ ?_
    intro kv hkv hkey
    simp only [toDict, List.mem_cons, List.not_mem_nil, or_false] at hkv
    rcases hkv with rfl | rfl | rfl | rfl | rfl | rfl | rfl | rfl | rfl |
      rfl | rfl | rfl
    on_goal 9 =>
      exact show pyTruthy (locVal h.location) = false by
        simp [hlnone, pyTruthy, locVal]
    all_goals exact absurd hkey (by simp)

/-- C9 witness: the invariants instantiated at a record built with empty
text, no note and location `0`: all three keys are omitted. -/
theorem C9_witness :
    (mkReadwiseHighlight [] none none none none none none none (some 0) none
        none none).location ≠ some 0 ∧
      ((mkReadwiseHighlight [] none none none none none none none (some 0)
          none none none).location = none →
        (get_nonempty_params (mkReadwiseHighlight [] none none none none none
          none none (some 0) none none none)).all
          (fun kv => !(kv.1 == "location")) = true) :=
  ⟨(C9_theorem [] none none none none none none none (some 0) none none
      none).1,
    (C9_theorem [] none none none none none none none (some 0) none none
      none).2.2.2.2⟩

/-- C10: reading the persisted last-sync version returns 0 both when the
`since` file is missing (`FileNotFoundError`) and when its content does not
parse as an integer (`ValueError`); neither case propagates an exception. -/
theorem C10_theorem :
    read_library_version none = 0 ∧
      ∀ c, pyInt c = none → read_library_version (some c) = 0 := by
  refine ⟨rfl, ?_⟩
  intro c hc
  show (match pyInt c with
    | some n => n
    | none => 0) = (0 : Int)
  rw [hc]

/-- C10 witness: the theorem applied to the unparsable content `"abc"`. -/
theorem C10_witness :
    pyInt "abc".data = none ∧ read_library_version (some "abc".data) = 0 :=
  ⟨by decide, C10_theorem.2 "abc".data (by decide)⟩

/-! ## A small backtracking regular-expression engine

CPython `re` semantics for the pattern subset used by `html_to_markdown`:
leftmost match, greedy operators try the longest repetition first, lazy
`.*?` the shortest, alternation prefers the left branch.  The interpreter is
written in continuation-passing style with a fuel argument (decremented on
every step, so it is structurally recursive and kernel-computable); the fuel
supplied by `reMatchAt` is far larger than the recursion depth any match of
these patterns can need, and a `none` result on inadequate fuel is
impossible for the lemmas below, which only use failures forced by a first
mismatching literal. -/

inductive ClsItem where
  | ch (c : Char)
  | range (lo hi : Char)
  | wsSet
  | wordSet
deriving DecidableEq

def clsItemMatch : ClsItem → Char → Bool
  | .ch a, c => c = a
  | .range lo hi, c => lo.toNat ≤ c.toNat && c.toNat ≤ hi.toNat
  | .wsSet, c => isPyWs c
  | .wordSet, c => c.isAlphanum || c = '_'

def clsMatch (neg : Bool) (items : List ClsItem) (c : Char) : Bool :=
  let m := items.any (fun it => clsItemMatch it c)
  if neg then !m else m

inductive Re where
  | eps
  | lit (c : Char)
  | cls (neg : Bool) (items : List ClsItem)
  | anyc
  | anyNoNL
  | seq (a b : Re)
  | alt (a b : Re)
  | starG (r : Re)
  | starL (r : Re)
  | plusG (r : Re)
  | opt (r : Re)
  | grp (i : Nat) (r : Re)
deriving DecidableEq

/-- Captured groups, most recent binding first (re-binding a group inside a
repetition keeps the last value, as in Python). -/
def Caps : Type := List (Nat × List Char)

def getCap (i : Nat) (caps : Caps) : List Char :=
  ((caps.find? (fun p => p.1 = i)).map Prod.snd).getD []

def orElseO {α : Type} : Option α → Option α → Option α
  | some a, _ => some a
  | none, b => b

def reMatch : Nat → Re → List Char → Caps →
    (Caps → List Char → Option (Caps × List Char)) →
    Option (Caps × List Char)
  | 0, _, _, _, _ => none
  | fuel + 1, r, s, caps, k =>
    match r with
    | .eps => k caps s
    | .lit c =>
      match s with
      | [] => none
      | x :: xs => if x = c then k caps xs else none
    | .cls neg items =>
      match s with
      | [] => none
      | x :: xs => if clsMatch neg items x then k caps xs else none
    | .anyc =>
      match s with
      | [] => none
      | _ :: xs => k caps xs
    | .anyNoNL =>
      match s with
      | [] => none
      | x :: xs => if x = '\n' then none else k caps xs
    | .seq a b => reMatch fuel a s caps (fun c1 s1 => reMatch fuel b s1 c1 k)
    | .alt a b => orElseO (reMatch fuel a s caps k) (reMatch fuel b s caps k)
    | .starG r =>
      orElseO
        (reMatch fuel r s caps (fun c1 s1 => reMatch fuel (.starG r) s1 c1 k))
        (k caps s)
    | .starL r =>
      orElseO (k caps s)
        (reMatch fuel r s caps (fun c1 s1 => reMatch fuel (.starL r) s1 c1 k))
    | .plusG r =>
      reMatch fuel r s caps (fun c1 s1 => reMatch fuel (.starG r) s1 c1 k)
    | .opt r => orElseO (reMatch fuel r s caps k) (k caps s)
    | .grp i r =>
      reMatch fuel r s caps
        (fun c1 s1 => k ((i, s.take (s.length - s1.length)) :: c1) s1)

def reSize : Re → Nat
  | .eps => 1
  | .lit _ => 1
  | .cls _ _ => 1
  | .anyc => 1
  | .anyNoNL => 1
  | .seq a b => reSize a + reSize b + 1
  | .alt a b => reSize a + reSize b + 1
  | .starG r => reSize r + 1
  | .starL r => reSize r + 1
  | .plusG r => reSize r + 2
  | .opt r => reSize r + 1
  | .grp _ r => reSize r + 1

def matchFuel (pat : Re) (s : List Char) : Nat :=
  (reSize pat + 2) * (s.length + 2) * 2

/-- Try to match `pat` at the start of `s`, returning the captures and the
remaining input. -/
def reMatchAt (pat : Re) (s : List Char) : Option (Caps × List Char) :=
  reMatch (matchFuel pat s) pat s [] (fun caps rest => some (caps, rest))

/-- `re.sub` with a stateful replacement function: scan left to right, at
each position try the pattern; on a match emit the replacement and resume
after the consumed text, otherwise emit one character and advance.  (All
patterns used here start with a literal, hence never match the empty word;
the `consumed = 0` guard only keeps the model total.)  Every step consumes
at least one input character, so the fuel `length + 1` never runs out. -/
def reSubStAux {σ : Type} (pat : Re)
    (tmpl : σ → List Char → Caps → (List Char × σ)) :
    Nat → List Char → σ → (List Char × σ)
  | 0, s, st => (s, st)
  | fuel + 1, s, st =>
    match s with
    | [] => ([], st)
    | c :: rest =>
      match reMatchAt pat s with
      | some (caps, after) =>
        let consumed := s.length - after.length
        if consumed = 0 then
          let r := reSubStAux pat tmpl fuel rest st
          (c :: r.1, r.2)
        else
          let whole := s.take consumed
          let r1 := tmpl st whole caps
          let r2 := reSubStAux pat tmpl fuel after r1.2
          (r1.1 ++ r2.1, r2.2)
      | none =>
        let r := reSubStAux pat tmpl fuel rest st
        (c :: r.1, r.2)

def reSubSt {σ : Type} (pat : Re)
    (tmpl : σ → List Char → Caps → (List Char × σ)) (s : List Char)
    (st : σ) : (List Char × σ) :=
  reSubStAux pat tmpl (s.length + 1) s st

/-- Stateless `re.sub`. -/
def reSub (pat : Re) (tmpl : List Char → Caps → List Char)
    (s : List Char) : List Char :=
  (reSubSt pat (fun (_ : Unit) whole caps => (tmpl whole caps, ())) s ()).1

/-- Build the pattern `c₁c₂…cₙ` followed by `r`. -/
def lits : List Char → Re → Re
  | [], r => r
  | c :: cs, r => .seq (.lit c) (lits cs r)

def litStr (s : String) (r : Re) : Re := lits s.data r

theorem reSub_eval_lazy_tail : reSub (litStr "ab" (.grp 1 (.starL .anyc))) (fun _ _ => "X".data)
    "zababy".data = "zXXy".data := by decide

theorem reSub_eval_lazy_group : reSub (litStr "a" (.seq (.grp 1 (.starL .anyc)) (.lit 'b')))
    (fun _ caps => '(' :: getCap 1 caps ++ [')'])
    "zaxxbyab".data = "z(xx)y()".data := by decide

theorem reSub_eval_tag_removal : reSub (.seq (.lit '<') (.seq (.plusG (.cls true [.ch '>']))
    (.lit '>'))) (fun _ _ => []) "a<div>b</div>c".data = "abc".data := by
  decide

theorem reSub_eval_bold : reSub (litStr "<b>" (.seq (.grp 1 (.starL .anyc))
    (litStr "</b>" .eps)))
    (fun _ caps => "**".data ++ getCap 1 caps ++ "**".data)
    "x<b>hi</b>y".data = "x**hi**y".data := by decide

/-! ## Python string helpers for html_to_markdown -/

/-- `str.replace(p, rep)` for a nonempty literal pattern `p`: leftmost
non-overlapping occurrences, scan resumes after the replacement.  Fuel
`length + 1` suffices because every step consumes at least one character. -/
def replaceSubAux (p rep : List Char) : Nat → List Char → List Char
  | 0, s => s
  | fuel + 1, s =>
    match s with
    | [] => []
    | c :: rest =>
      if beginsWith p (c :: rest) then rep ++ replaceSubAux p rep fuel ((c :: rest).drop p.length)
      else c :: replaceSubAux p rep fuel rest

def pyReplace (p rep s : List Char) : List Char := replaceSubAux p rep (s.length + 1) s

/-- `dropWhile` from the right end (structural, kernel-computable). -/
def dropEndWhile (p : Char → Bool) : List Char → List Char
  | [] => []
  | c :: rest =>
    let r := dropEndWhile p rest
    if r = [] ∧ p c then [] else c :: r

/-- `str.strip('$')`. -/
def stripDollar (l : List Char) : List Char :=
  dropEndWhile (fun c => c = '$') (l.dropWhile (fun c => c = '$'))

/-- `str.split('\n')` (single-character separator; Python split always
returns at least one piece). -/
def splitNL : List Char → List (List Char)
  | [] => [[]]
  | '\n' :: rest => [] :: splitNL rest
  | c :: rest => consHead c (splitNL rest)

/-- `'\n'.join(...)`. -/
def joinNL : List (List Char) → List Char
  | [] => []
  | [x] => x
  | x :: y :: xs => x ++ '\n' :: joinNL (y :: xs)

/-! ## html.unescape model

`html.unescape` resolves named and numeric character references.  The named
table here is restricted to common entities (the full HTML5 table has ~2200
names); entries sharing a prefix are ordered longest first, matching
Python's longest-known-name resolution.  Numeric references outside the
valid scalar range are mapped to U+FFFD (the windows-1252 remapping of the
C1 range that `html.unescape` additionally performs is not modelled; no
theorem below exercises numeric references). -/

def entityTable : List (List Char × List Char) :=
  [("amp;".data, "&".data), ("amp".data, "&".data),
   ("lt;".data, "<".data), ("lt".data, "<".data),
   ("gt;".data, ">".data), ("gt".data, ">".data),
   ("quot;".data, "\"".data), ("quot".data, "\"".data),
   ("apos;".data, [Char.ofNat 39]),
   ("nbsp;".data, "\u00a0".data), ("nbsp".data, "\u00a0".data),
   ("copy;".data, "\u00a9".data), ("reg;".data, "\u00ae".data),
   ("mdash;".data, "\u2014".data), ("ndash;".data, "\u2013".data),
   ("hellip;".data, "\u2026".data),
   ("ldquo;".data, "\u201c".data), ("rdquo;".data, "\u201d".data),
   ("lsquo;".data, "\u2018".data), ("rsquo;".data, "\u2019".data),
   ("times;".data, "\u00d7".data), ("middot;".data, "\u00b7".data),
   ("bull;".data, "\u2022".data), ("sect;".data, "\u00a7".data),
   ("deg;".data, "\u00b0".data)]

def isHexDigit (c : Char) : Bool :=
  c.isDigit || ('a'.toNat ≤ c.toNat && c.toNat ≤ 'f'.toNat)
    || ('A'.toNat ≤ c.toNat && c.toNat ≤ 'F'.toNat)

def hexDigitVal (c : Char) : Nat :=
  if c.isDigit then c.toNat - '0'.toNat
  else if 'a'.toNat ≤ c.toNat && c.toNat ≤ 'f'.toNat then c.toNat - 'a'.toNat + 10
  else c.toNat - 'A'.toNat + 10

def hexToNat (l : List Char) : Nat := l.foldl (fun acc c => acc * 16 + hexDigitVal c) 0

def cpToChar (n : Nat) : Char :=
  if n < 0xd800 ∨ (0xdfff < n ∧ n ≤ 0x10ffff) then Char.ofNat n else Char.ofNat 0xfffd

/-- Resolve one character reference right after a `&`: returns the
replacement and the remaining input, or `none` if nothing matches. -/
def entLookup (rest : List Char) : Option (List Char × List Char) :=
  match rest with
  | '#' :: r2 =>
    let hex := match r2 with
      | 'x' :: _ => true
      | 'X' :: _ => true
      | _ => false
    let r3 := if hex then r2.drop 1 else r2
    let ds := r3.takeWhile (fun c => if hex then isHexDigit c else c.isDigit)
    if ds = [] then none
    else
      let n := if hex then hexToNat ds else digitsToNat ds
      let r4 := r3.drop ds.length
      let r5 := match r4 with
        | ';' :: r => r
        | r => r
      some ([cpToChar n], r5)
  | _ =>
    (entityTable.find? (fun e => beginsWith e.1 rest)).map
      (fun e => (e.2, rest.drop e.1.length))

def pyUnescapeAux : Nat → List Char → List Char
  | 0, s => s
  | fuel + 1, s =>
    match s with
    | [] => []
    | c :: rest =>
      if c = '&' then
        match entLookup rest with
        | some r => r.1 ++ pyUnescapeAux fuel r.2
        | none => '&' :: pyUnescapeAux fuel rest
      else c :: pyUnescapeAux fuel rest

def pyUnescape (s : List Char) : List Char := pyUnescapeAux (s.length + 1) s

/-! ## The regex patterns of html_to_markdown (helper.py 70-194)

Each pattern transcribes the `re.sub` pattern at the quoted line; `(.*?)`
under `re.DOTALL` is `.starL .anyc`, without it `.starL .anyNoNL`. -/

def clsNotGt : Re := .cls true [.ch '>']

def wsStar : Re := .starG (.cls false [.wsSet])

/-- helper.py 70: `<span class="math">\$(.*?)\$</span>` (DOTALL). -/
def reSpanMathD : Re :=
  litStr "<span class=\"math\">$" (.seq (.grp 1 (.starL .anyc)) (litStr "$</span>" .eps))

/-- helper.py 71: `<pre class="math">\$\$(.*?)\$\$</pre>` (DOTALL). -/
def rePreMathD : Re :=
  litStr "<pre class=\"math\">$$" (.seq (.grp 1 (.starL .anyc)) (litStr "$$</pre>" .eps))

/-- helper.py 74: `<span class="math">(.*?)</span>` (DOTALL). -/
def reSpanMath : Re :=
  litStr "<span class=\"math\">" (.seq (.grp 1 (.starL .anyc)) (litStr "</span>" .eps))

/-- helper.py 75: `<pre class="math">(.*?)</pre>` (DOTALL). -/
def rePreMath : Re :=
  litStr "<pre class=\"math\">" (.seq (.grp 1 (.starL .anyc)) (litStr "</pre>" .eps))

/-- helper.py 83: `<style[^>]*>.*?</style>` (DOTALL). -/
def reStyle : Re :=
  litStr "<style" (.seq (.starG clsNotGt) (.seq (.lit '>')
    (.seq (.starL .anyc) (litStr "</style>" .eps))))

/-- helper.py 84: `<script[^>]*>.*?</script>` (DOTALL). -/
def reScript : Re :=
  litStr "<script" (.seq (.starG clsNotGt) (.seq (.lit '>')
    (.seq (.starL .anyc) (litStr "</script>" .eps))))

/-- helper.py 87: `<!--.*?-->` (DOTALL). -/
def reHtmlComment : Re := litStr "<!--" (.seq (.starL .anyc) (litStr "-->" .eps))

/-- helper.py 99: `<pre><code>(.*?)</code></pre>` (DOTALL). -/
def rePreCode : Re :=
  litStr "<pre><code>" (.seq (.grp 1 (.starL .anyc)) (litStr "</code></pre>" .eps))

/-- helper.py 100: `<pre>(.*?)</pre>` (DOTALL). -/
def rePre : Re := litStr "<pre>" (.seq (.grp 1 (.starL .anyc)) (litStr "</pre>" .eps))

/-- helper.py 101: `<code>(.*?)</code>` (DOTALL). -/
def reCode : Re := litStr "<code>" (.seq (.grp 1 (.starL .anyc)) (litStr "</code>" .eps))

/-- helper.py 106: `<blockquote>(.*?)</blockquote>` (DOTALL). -/
def reBlockquote : Re :=
  litStr "<blockquote>" (.seq (.grp 1 (.starL .anyc)) (litStr "</blockquote>" .eps))

/-- helper.py 112: `<h{i}[^>]*>(.*?)</h{i}>` (DOTALL). -/
def reHeading (i : Nat) : Re :=
  litStr "<h" (lits (Nat.repr i).data (.seq (.starG clsNotGt) (.seq (.lit '>')
    (.seq (.grp 1 (.starL .anyc))
      (litStr "</h" (lits (Nat.repr i).data (.lit '>')))))))

/-- Pattern `OPEN[^>]*>(.*?)CLOSE` (DOTALL): helper.py 115/116/138. -/
def rePairAttrs (openLit closeLit : String) : Re :=
  litStr openLit (.seq (.starG clsNotGt) (.seq (.lit '>')
    (.seq (.grp 1 (.starL .anyc)) (litStr closeLit .eps))))

def reDiv : Re := rePairAttrs "<div" "</div>"

def reParagraph : Re := rePairAttrs "<p" "</p>"

def reListItem : Re := rePairAttrs "<li" "</li>"

/-- helper.py 119: `<hr[^>]*>`. -/
def reHr : Re := litStr "<hr" (.seq (.starG clsNotGt) (.lit '>'))

/-- helper.py 121: `<br[^>]*>`. -/
def reBr : Re := litStr "<br" (.seq (.starG clsNotGt) (.lit '>'))

/-- helper.py 142: `<[uo]l[^>]*>`. -/
def reListOpen : Re :=
  .seq (.lit '<') (.seq (.cls false [.ch 'u', .ch 'o']) (.seq (.lit 'l')
    (.seq (.starG clsNotGt) (.lit '>'))))

/-- helper.py 143: `</[uo]l[^>]*>`. -/
def reListClose : Re :=
  litStr "</" (.seq (.cls false [.ch 'u', .ch 'o']) (.seq (.lit 'l')
    (.seq (.starG clsNotGt) (.lit '>'))))

/-- helper.py 149: `<(?:strong|b)>(.*?)</(?:strong|b)>` (DOTALL). -/
def reStrong : Re :=
  .seq (.lit '<') (.seq (.alt (litStr "strong" .eps) (litStr "b" .eps)) (.seq (.lit '>')
    (.seq (.grp 1 (.starL .anyc)) (litStr "</"
      (.seq (.alt (litStr "strong" .eps) (litStr "b" .eps)) (.lit '>'))))))

/-- helper.py 152: `<(?:em|i)>(.*?)</(?:em|i)>` (DOTALL). -/
def reEm : Re :=
  .seq (.lit '<') (.seq (.alt (litStr "em" .eps) (litStr "i" .eps)) (.seq (.lit '>')
    (.seq (.grp 1 (.starL .anyc)) (litStr "</"
      (.seq (.alt (litStr "em" .eps) (litStr "i" .eps)) (.lit '>'))))))

def quoteCls : List ClsItem := [.ch (Char.ofNat 39), .ch '"']

/-- helper.py 155: `<a[^>]*href=['"]([^'"]*)['"][^>]*>(.*?)</a>` (DOTALL);
the quote characters are the apostrophe (U+0027) and the double quote. -/
def reAnchor : Re :=
  litStr "<a" (.seq (.starG clsNotGt) (litStr "href=" (.seq (.cls false quoteCls)
    (.seq (.grp 1 (.starG (.cls true quoteCls))) (.seq (.cls false quoteCls)
    (.seq (.starG clsNotGt) (.seq (.lit '>')
    (.seq (.grp 2 (.starL .anyc)) (litStr "</a>" .eps)))))))))

/-- helper.py 158: `<[^>]+>` (DOTALL). -/
def reAnyTag : Re := .seq (.lit '<') (.seq (.plusG clsNotGt) (.lit '>'))

/-- helper.py 188: `\[\s*(\mathcal{...}.*?[\\()\[\],\s\w\^=]+)\s*\]`
(no DOTALL, so `.*?` is `.starL .anyNoNL`). -/
def cls188 : List ClsItem :=
  [.ch '\\', .ch '(', .ch ')', .ch '[', .ch ']', .ch ',', .wsSet, .wordSet, .ch '^', .ch '=']

def reMathBr1 : Re :=
  .seq (.lit '[') (.seq wsStar (.seq (.grp 1 (
    litStr "\\mathcal\x7b" (.seq (.plusG (.cls true [.ch '\x7d'])) (.seq (.lit '\x7d')
      (.seq (.starL .anyNoNL) (.plusG (.cls false cls188)))))))
    (.seq wsStar (.lit ']'))))

/-- helper.py 191:
`\[\s*((\\[a-zA-Z]+(\{[^}]*\})?(\s*[=><\(\)\[\]\{\},\+\-\*/\^0-9a-zA-Z])*)+)\s*\]`. -/
def cls191 : List ClsItem :=
  [.ch '=', .ch '>', .ch '<', .ch '(', .ch ')', .ch '[', .ch ']', .ch '\x7b', .ch '\x7d',
   .ch ',', .ch '+', .ch '-', .ch '*', .ch '/', .ch '^',
   .range '0' '9', .range 'a' 'z', .range 'A' 'Z']

def reMathBr2 : Re :=
  .seq (.lit '[') (.seq wsStar (.seq (.grp 1 (.plusG (.grp 2 (
    .seq (.lit '\\') (.seq (.plusG (.cls false [.range 'a' 'z', .range 'A' 'Z']))
      (.seq (.opt (.grp 3 (.seq (.lit '\x7b')
        (.seq (.starG (.cls true [.ch '\x7d'])) (.lit '\x7d')))))
        (.starG (.grp 4 (.seq wsStar (.cls false cls191))))))))))
    (.seq wsStar (.lit ']'))))

/-- helper.py 194: `\(\\([A-Z][a-z]+)\)`. -/
def reGreekParen : Re :=
  .seq (.lit '(') (.seq (.lit '\\') (.seq (.grp 1 (.seq (.cls false [.range 'A' 'Z'])
    (.plusG (.cls false [.range 'a' 'z'])))) (.lit ')')))

/-! ## Replacement templates and line passes of html_to_markdown -/

def mathPlaceholder (n : Nat) : List Char := "MATH_PLACEHOLDER_".data ++ (Nat.repr n).data

def codePlaceholder (n : Nat) : List Char :=
  "CODE_BLOCK_PLACEHOLDER_".data ++ (Nat.repr n).data

/-- helper.py 57-65 `save_math`: the state is the ordered math_blocks table
(placeholder, stripped content, is_inline); `math_count` equals its length. -/
def saveMathTmpl (st : List (List Char × List Char × Bool)) (whole : List Char)
    (caps : Caps) : List Char × List (List Char × List Char × Bool) :=
  (mathPlaceholder st.length,
   st ++ [(mathPlaceholder st.length, pyStrip (getCap 1 caps),
           beginsWith "<span".data whole)])

/-- helper.py 92-96 `save_code_block`. -/
def saveCodeTmpl (st : List (List Char)) (_whole : List Char) (caps : Caps) :
    List Char × List (List Char) :=
  (codePlaceholder st.length, st ++ [pyRStrip (getCap 1 caps)])

/-- helper.py 107: `'\n> ' + m.group(1).strip().replace('\n', '\n> ') + '\n'`. -/
def tBlockquote (_whole : List Char) (caps : Caps) : List Char :=
  "\n> ".data ++ pyReplace "\n".data "\n> ".data (pyStrip (getCap 1 caps)) ++ "\n".data

/-- helper.py 112: `f'\n{"#" * i} \1\n'`. -/
def tHeading (i : Nat) (_whole : List Char) (caps : Caps) : List Char :=
  '\n' :: List.replicate i '#' ++ ' ' :: getCap 1 caps ++ ['\n']

/-- helper.py 126-136 `process_list_item`. -/
def process_list_item (g1 : List Char) : List Char :=
  let content := pyStrip g1
  match splitNL content with
  | [] => "- ".data
  | first :: rest =>
    let r0 := "- ".data ++ pyStrip first
    if rest = [] then r0
    else r0 ++ '\n' ::
      pyRStrip ((rest.map (fun ln => "  ".data ++ pyStrip ln ++ ['\n'])).flatten)

/-- helper.py 169-171: restore the saved code blocks. -/
def restoreCode (codes : List (List Char)) (content : List Char) : List Char :=
  codes.enum.foldl (fun acc p =>
    pyReplace (codePlaceholder p.1) ("```\n".data ++ p.2 ++ "\n```".data) acc) content

/-- helper.py 173-182: restore the saved math blocks (dict iteration is in
insertion order). -/
def restoreMath (blocks : List (List Char × List Char × Bool))
    (content : List Char) : List Char :=
  blocks.foldl (fun acc b =>
    if b.2.2 then pyReplace b.1 ('$' :: stripDollar b.2.1 ++ ['$']) acc
    else pyReplace b.1 ("$$\n".data ++ stripDollar b.2.1 ++ "\n$$".data) acc) content

/-- helper.py 198-202 `math_symbols`. -/
def mathSymbols : List (List Char) :=
  ["mathcal".data, "mathbb".data, "alpha".data, "beta".data, "gamma".data,
   "delta".data, "epsilon".data, "zeta".data, "eta".data, "theta".data,
   "iota".data, "kappa".data, "lambda".data, "mu".data, "nu".data, "xi".data,
   "omicron".data, "pi".data, "rho".data, "sigma".data, "tau".data,
   "upsilon".data, "phi".data, "chi".data, "psi".data, "omega".data,
   "Gamma".data, "Delta".data, "Theta".data, "Lambda".data, "Xi".data,
   "Pi".data, "Sigma".data, "Upsilon".data, "Phi".data, "Psi".data,
   "Omega".data, "sum".data, "prod".data, "infty".data, "int".data,
   "partial".data]

/-- `l.getLast? = some c`, i.e. Python `endswith` for a one-character suffix. -/
def endsWithChar (c : Char) (l : List Char) : Bool :=
  match l.getLast? with
  | some d => d = c
  | none => false

/-- helper.py 204-219, body of the per-line loop: a line that is not
skipped is rewritten to `$stripped[1:-1].strip()$` when some math symbol
occurs as `\symbol` and the stripped line is bracket-delimited with a
backslash present (the rewrite does not depend on which symbol hit, so the
inner loop's first hit equals an existential test). -/
def mathLineFix (line : List Char) : List Char :=
  if containsSub ['$'] line ∨ beginsWith "```".data line ∨ beginsWith "    ".data line then
    line
  else if (mathSymbols.any (fun sym => containsSub ('\\' :: sym) line)) ∧
      beginsWith "[".data (pyStrip line) ∧ endsWithChar ']' (pyStrip line) ∧
      containsSub ['\\'] line then
    '$' :: pyStrip ((pyStrip line).drop 1 |>.dropLast) ++ ['$']
  else line

def mathLinePass (content : List Char) : List Char :=
  joinNL ((splitNL content).map mathLineFix)

/-- helper.py 222-226: the exact POMDP pattern is a fully escaped literal,
so `re.search` of it is a substring test and the rewrite a `str.replace`. -/
def pomdpLit : List Char :=
  "[ \\mathcal\x7bM\x7d = (S, A, T, R, \\Omega, O, H, \\gamma) ]".data

def pomdpRepl : List Char :=
  "$\\mathcal\x7bM\x7d = (S, A, T, R, \\Omega, O, H, \\gamma)$".data

def pomdpPass (content : List Char) : List Char :=
  if containsSub pomdpLit content then pyReplace pomdpLit pomdpRepl content else content

/-- Python `str.find(c)` for a one-character needle, as an `Option`
(`none` for Python's `-1`). -/
def pyFind (c : Char) : List Char → Option Nat
  | [] => none
  | x :: xs => if x = c then some 0 else (pyFind c xs).map (fun n => n + 1)

/-- helper.py 229-240, body of the list-indentation loop (`stripped` of the
source is inlined as `pyLStrip line`). -/
def listFixLine (line : List Char) : List Char :=
  if beginsWith "- ".data (pyLStrip line) then
    match pyFind '-' line with
    | some k => if 0 < k then List.replicate k ' ' ++ pyLStrip line else pyLStrip line
    | none => pyLStrip line
  else line

def listFixPass (content : List Char) : List Char :=
  joinNL ((splitNL content).map listFixLine)

def countChar (c : Char) (l : List Char) : Nat := (l.filter (fun x => x = c)).length

/-- `textwrap.fill(line, 100)` (helper.py 271). -/
def pyFill (w : Nat) (line : List Char) : List Char := joinNL (pyWrap w true line)

/-- helper.py 249-273, body of the wrapping loop: given the in-code / in-math
flags, produce the updated flags and the emitted line. -/
def wrapLineStep (inCode inMath : Bool) (line : List Char) :
    Bool × Bool × List Char :=
  if beginsWith "```".data line then (!inCode, inMath, line)
  else if beginsWith "$$".data line then (inCode, !inMath, line)
  else if inCode || inMath then (inCode, inMath, line)
  else if beginsWith "#".data line || pyStrip line = "---".data || pyStrip line = [] then
    (inCode, inMath, line)
  else if beginsWith "- ".data line || beginsWith "  ".data line then
    (inCode, inMath, line)
  else if containsSub ['$'] line && !(decide (2 ≤ countChar '$' line)) then
    (inCode, inMath, line)
  else if 100 < line.length then (inCode, inMath, pyFill 100 line)
  else (inCode, inMath, line)

def wrapLinesGo : Bool → Bool → List (List Char) → List (List Char)
  | _, _, [] => []
  | c, m, line :: rest =>
    let r := wrapLineStep c m line
    r.2.2 :: wrapLinesGo r.1 r.2.1 rest

def wrapPass (content : List Char) : List Char :=
  joinNL (wrapLinesGo false false (splitNL content))

/-- helper.py 50-51: the hard-coded special case. -/
def specialEntityTest : List Char := "<p>HTML entities: &amp; &lt; &gt;</p>".data

def specialEntityResult : List Char := "HTML entities: & < >".data

/-- helper.py 21-300 `html_to_markdown`, stage by stage in source order.
`None` is modelled as `none` (the `if not html_content` guard covers both
`None` and the empty string).  The whitespace regexes at lines 163-167 and
285-298 are the stage functions proved equivalent to them above
(`collapseNL` for `\n{3,}` and also for `\n\n\n+`, `collapseSp`,
`dropNLSp`, `fixListGap`, `collapseTriple`, `fixEmptyItems`,
`insertBlankHeading`). -/
def html_to_markdown (html_content : Option (List Char)) : List Char :=
  match html_content with
  | none => []
  | some s0 =>
    if s0 = [] then []
    else if s0 = specialEntityTest then specialEntityResult
    else
      let m1 := reSubSt reSpanMathD saveMathTmpl s0 []
      let m2 := reSubSt rePreMathD saveMathTmpl m1.1 m1.2
      let m3 := reSubSt reSpanMath saveMathTmpl m2.1 m2.2
      let m4 := reSubSt rePreMath saveMathTmpl m3.1 m3.2
      let c1 := pyUnescape m4.1
      let c2 := pyReplace "&amp;".data "&".data
        (pyReplace "&gt;".data ">".data (pyReplace "&lt;".data "<".data c1))
      let c3 := reSub reStyle (fun _ _ => []) c2
      let c4 := reSub reScript (fun _ _ => []) c3
      let c5 := reSub reHtmlComment (fun _ _ => []) c4
      let k1 := reSubSt rePreCode saveCodeTmpl c5 []
      let k2 := reSubSt rePre saveCodeTmpl k1.1 k1.2
      let c6 := reSub reCode (fun _ caps => '`' :: getCap 1 caps ++ ['`']) k2.1
      let c7 := reSub reBlockquote tBlockquote c6
      let c8 := reSub (reHeading 1) (tHeading 1) c7
      let c9 := reSub (reHeading 2) (tHeading 2) c8
      let c10 := reSub (reHeading 3) (tHeading 3) c9
      let c11 := reSub (reHeading 4) (tHeading 4) c10
      let c12 := reSub (reHeading 5) (tHeading 5) c11
      let c13 := reSub (reHeading 6) (tHeading 6) c12
      let c14 := reSub reDiv (fun _ caps => '\n' :: getCap 1 caps ++ ['\n']) c13
      let c15 := reSub reParagraph (fun _ caps => '\n' :: getCap 1 caps ++ ['\n']) c14
      let c16 := reSub reHr (fun _ _ => "\n---\n".data) c15
      let c17 := reSub reBr (fun _ _ => ['\n']) c16
      let c18 := reSub reListItem (fun _ caps => process_list_item (getCap 1 caps)) c17
      let c19 := reSub reListOpen (fun _ _ => ['\n']) c18
      let c20 := reSub reListClose (fun _ _ => ['\n']) c19
      let c21 := reSub reStrong (fun _ caps => "**".data ++ getCap 1 caps ++ "**".data) c20
      let c22 := reSub reEm (fun _ caps => "*".data ++ getCap 1 caps ++ "*".data) c21
      let c23 := reSub reAnchor
        (fun _ caps => '[' :: getCap 2 caps ++ ']' :: '(' :: getCap 1 caps ++ [')']) c22
      let c24 := reSub reAnyTag (fun _ _ => []) c23
      let c25 := collapseNL c24
      let c26 := collapseSp c25
      let c27 := dropNLSp c26
      let c28 := restoreCode k2.2 c27
      let c29 := restoreMath m4.2 c28
      let c30 := reSub reMathBr1 (fun _ caps => '$' :: getCap 1 caps ++ ['$']) c29
      let c31 := reSub reMathBr2 (fun _ caps => '$' :: getCap 1 caps ++ ['$']) c30
      let c32 := reSub reGreekParen
        (fun _ caps => '$' :: '\\' :: getCap 1 caps ++ ['$']) c31
      let c33 := mathLinePass c32
      let c34 := pomdpPass c33
      let c35 := listFixPass c34
      let c36 := wrapPass c35
      let c37 := collapseNL c36
      let c38 := fixListGap c37
      let c39 := collapseTriple c38
      let c40 := fixEmptyItems c39
      let c41 := insertBlankHeading c40
      pyStrip c41

theorem htmlEval_bold_paragraph :
    html_to_markdown (some "<p>Hello <strong>world</strong></p>".data) =
      "Hello **world**".data := by decide

theorem htmlEval_heading_em :
    html_to_markdown (some "<h1>Title</h1><p>Paragraph with <em>emphasis</em></p>".data) =
      "# Title\n\nParagraph with *emphasis*".data := by decide

theorem htmlEval_ordered_list :
    html_to_markdown (some "<ol><li>First</li><li>Second</li></ol>".data) =
      "- First- Second".data := by decide

theorem htmlEval_unordered_list :
    html_to_markdown (some "<ul><li>Apple</li><li>Banana</li></ul>".data) =
      "- Apple- Banana".data := by decide

theorem htmlEval_pre_fence :
    html_to_markdown (some "<pre>line1\nline2</pre>".data) =
      "```\nline1\nline2\n```".data := by decide

theorem htmlEval_blockquote :
    html_to_markdown (some "<blockquote>quoted\ntext</blockquote>".data) =
      "> quoted\n> text".data := by decide

theorem htmlEval_anchor :
    html_to_markdown (some "<a href=\"http://x.y\">link</a> end".data) =
      "[link](http://x.y) end".data := by decide

theorem htmlEval_math_span :
    html_to_markdown (some "<span class=\"math\">$E=mc^2$</span> rest".data) =
      "$E=mc^2$ rest".data := by decide

theorem htmlEval_space_collapse : html_to_markdown (some "a  b".data) = "a b".data := by decide

theorem htmlEval_strip_ends :
    html_to_markdown (some " hello world\nbye ".data) = "hello world\nbye".data := by
  decide

theorem htmlEval_inline_code : html_to_markdown (some "<code>x+y</code>".data) = "`x+y`".data := by decide

theorem htmlEval_math_bracket :
    html_to_markdown (some "[ \\alpha + \\beta ]".data) = "$\\alpha + \\beta$".data := by
  decide

/-! ## Identity lemmas: a substitution whose pattern starts with a literal
absent from the input leaves the input unchanged -/

theorem reMatch_seq_lit_cons_ne {x c : Char} {r : Re} (h : ¬x = c)
    (xs : List Char) (fuel : Nat) (caps : Caps)
    (k : Caps → List Char → Option (Caps × List Char)) :
    reMatch fuel (.seq (.lit c) r) (x :: xs) caps k = none := by
  match fuel with
  | 0 => rfl
  | 1 => rfl
  | f + 2 => simp [reMatch, h]

theorem reMatch_seq_lit_nil {c : Char} {r : Re} (fuel : Nat) (caps : Caps)
    (k : Caps → List Char → Option (Caps × List Char)) :
    reMatch fuel (.seq (.lit c) r) [] caps k = none := by
  match fuel with
  | 0 => rfl
  | 1 => rfl
  | f + 2 => simp [reMatch]

theorem reMatchAt_seq_lit_none {c : Char} {r : Re} {s : List Char}
    (h : ∀ x xs, s = x :: xs → ¬x = c) :
    reMatchAt (.seq (.lit c) r) s = none := by
  cases s with
  | nil => exact reMatch_seq_lit_nil _ _ _
  | cons x xs => exact reMatch_seq_lit_cons_ne (h x xs rfl) _ _ _ _

theorem reSubStAux_id {σ : Type} {c : Char} {r : Re}
    (tmpl : σ → List Char → Caps → (List Char × σ)) :
    ∀ fuel (s : List Char) (st : σ), c ∉ s →
    reSubStAux (.seq (.lit c) r) tmpl fuel s st = (s, st) := by
  intro fuel
  induction fuel with
  | zero => intro s st _; rfl
  | succ f ih =>
    intro s st h
    cases s with
    | nil => rfl
    | cons x xs =>
      have hx : ¬x = c := fun he => h (he ▸ List.mem_cons_self x xs)
      have hxs : c ∉ xs := fun he => h (List.mem_cons_of_mem x he)
      have hm : reMatchAt (.seq (.lit c) r) (x :: xs) = none :=
        reMatchAt_seq_lit_none (fun y ys he hyc => by
          injection he with e1 _
          exact hx (e1.trans hyc))
      simp only [reSubStAux, hm]
      rw [ih xs st hxs]

/-- `reHead pat = some c` when the pattern is a literal `c` followed by
anything; every pattern of the pipeline has this shape. -/
def reHead : Re → Option Char
  | .seq (.lit c) _ => some c
  | _ => none

theorem reSubSt_id_head {pat : Re} {c : Char} (hp : reHead pat = some c)
    {σ : Type} (tmpl : σ → List Char → Caps → (List Char × σ))
    {s : List Char} (st : σ) (h : c ∉ s) : reSubSt pat tmpl s st = (s, st) := by
  cases pat <;> simp [reHead] at hp
  case seq a b =>
    cases a <;> simp [reHead] at hp
    case lit c2 =>
      subst hp
      exact reSubStAux_id tmpl _ s st h

theorem reSub_id_head {pat : Re} {c : Char} (hp : reHead pat = some c)
    (tmpl : List Char → Caps → List Char) {s : List Char} (h : c ∉ s) :
    reSub pat tmpl s = s := by
  unfold reSub
  rw [reSubSt_id_head hp _ _ h]

/-- An occurrence of `c :: p` in `l` puts `c` in `l`. -/
theorem containsSub_head_mem {c : Char} {p l : List Char}
    (h : containsSub (c :: p) l = true) : c ∈ l := by
  induction l with
  | nil => cases h
  | cons x xs ih =>
    rw [containsSub_cons] at h
    rcases Bool.or_eq_true_iff.mp h with hb | ht
    · rw [beginsWith_cons_cons] at hb
      have := (Bool.and_eq_true_iff.mp hb).1
      exact (of_decide_eq_true this) ▸ List.mem_cons_self x xs
    · exact List.mem_cons_of_mem x (ih ht)

theorem containsSub_head_false {c : Char} {p l : List Char}
    (h : c ∉ l) : containsSub (c :: p) l = false := by
  cases hcs : containsSub (c :: p) l with
  | false => rfl
  | true => exact absurd (containsSub_head_mem hcs) h

theorem replaceSubAux_id {p0 : Char} {ps rep : List Char} :
    ∀ fuel (s : List Char), p0 ∉ s → replaceSubAux (p0 :: ps) rep fuel s = s := by
  intro fuel
  induction fuel with
  | zero => intro s _; rfl
  | succ f ih =>
    intro s h
    cases s with
    | nil => rfl
    | cons x xs =>
      have hx : ¬(p0 = x) := fun he => h (he ▸ List.mem_cons_self x xs)
      have hb : beginsWith (p0 :: ps) (x :: xs) = false := by
        rw [beginsWith_cons_cons]
        simp [hx]
      simp only [replaceSubAux, hb]
      rw [ih xs (fun he => h (List.mem_cons_of_mem x he))]
      simp

theorem pyReplace_id {p0 : Char} {ps rep s : List Char} (h : p0 ∉ s) :
    pyReplace (p0 :: ps) rep s = s := replaceSubAux_id _ s h

theorem pyUnescapeAux_id {s : List Char} : ∀ fuel, '&' ∉ s →
    pyUnescapeAux fuel s = s := by
  induction s with
  | nil => intro fuel _; cases fuel <;> rfl
  | cons x xs ih =>
    intro fuel h
    cases fuel with
    | zero => rfl
    | succ f =>
      have hx : ¬(x = '&') := fun he => h (he ▸ List.mem_cons_self x xs)
      simp only [pyUnescapeAux, if_neg hx]
      rw [ih f (fun he => h (List.mem_cons_of_mem x he))]

theorem pyUnescape_id {s : List Char} (h : '&' ∉ s) : pyUnescape s = s :=
  pyUnescapeAux_id _ h

/-! ## splitNL / joinNL -/

theorem splitNL_nl (rest : List Char) : splitNL ('\n' :: rest) = [] :: splitNL rest := by
  rfl

theorem splitNL_cons (c : Char) (rest : List Char) (hc : ¬c = '\n') :
    splitNL (c :: rest) = consHead c (splitNL rest) := by
  rw [splitNL.eq_def]
  split
  · rename_i heq
    cases heq
  · rename_i r heq
    injection heq with e1 e2
    exact absurd e1 hc
  · rename_i c2 r2 heq
    injection heq with e1 e2
    subst e1; subst e2
    rfl

theorem splitNL_ne_nil (l : List Char) : splitNL l ≠ [] := by
  induction l using splitNL.induct with
  | case1 => simp [splitNL]
  | case2 rest ih => simp [splitNL_nl]
  | case3 c rest h2 ih =>
    rw [splitNL_cons c rest h2]
    cases hsp : splitNL rest with
    | nil => exact absurd hsp ih
    | cons p ps => simp [consHead]

theorem joinNL_cons_ne {x : List Char} {xs : List (List Char)}
    (h : xs ≠ []) : joinNL (x :: xs) = x ++ '\n' :: joinNL xs := by
  cases xs with
  | nil => exact absurd rfl h
  | cons y ys => rfl

theorem joinNL_consHead (c : Char) {L : List (List Char)} (h : L ≠ []) :
    joinNL (consHead c L) = c :: joinNL L := by
  cases L with
  | nil => exact absurd rfl h
  | cons p ps =>
    cases ps with
    | nil => rfl
    | cons q qs =>
      rw [show consHead c (p :: q :: qs) = (c :: p) :: q :: qs from rfl]
      rw [joinNL_cons_ne (show (q :: qs : List (List Char)) ≠ [] by simp)]
      rw [joinNL_cons_ne (show (q :: qs : List (List Char)) ≠ [] by simp)]
      simp [List.cons_append]

theorem joinNL_splitNL (l : List Char) : joinNL (splitNL l) = l := by
  induction l using splitNL.induct with
  | case1 => rfl
  | case2 rest ih =>
    rw [splitNL_nl, joinNL_cons_ne (splitNL_ne_nil rest), ih]
    rfl
  | case3 c rest h2 ih =>
    rw [splitNL_cons c rest h2, joinNL_consHead c (splitNL_ne_nil rest), ih]

theorem splitNL_mem_subset : ∀ {l : List Char} {line : List Char} {a : Char},
    line ∈ splitNL l → a ∈ line → a ∈ l := by
  intro l
  induction l using splitNL.induct with
  | case1 =>
    intro line a hline ha
    simp [splitNL] at hline
    subst hline
    cases ha
  | case2 rest ih =>
    intro line a hline ha
    rw [splitNL_nl] at hline
    rcases List.mem_cons.mp hline with he | ht
    · subst he; cases ha
    · exact List.mem_cons_of_mem _ (ih ht ha)
  | case3 c rest h2 ih =>
    intro line a hline ha
    rw [splitNL_cons c rest h2] at hline
    cases hsp : splitNL rest with
    | nil => exact absurd hsp (splitNL_ne_nil rest)
    | cons p ps =>
      rw [hsp] at hline
      simp only [consHead] at hline
      rcases List.mem_cons.mp hline with he | ht
      · subst he
        rcases List.mem_cons.mp ha with hac | hap
        · exact hac ▸ List.mem_cons_self c rest
        · exact List.mem_cons_of_mem _ (ih (hsp ▸ List.mem_cons_self p ps) hap)
      · exact List.mem_cons_of_mem _ (ih (hsp ▸ List.mem_cons_of_mem p ht) ha)

theorem splitNL_no_nl : ∀ {l : List Char} {line : List Char},
    line ∈ splitNL l → '\n' ∉ line := by
  intro l
  induction l using splitNL.induct with
  | case1 =>
    intro line hline
    simp [splitNL] at hline
    subst hline
    exact List.not_mem_nil '\n'
  | case2 rest ih =>
    intro line hline
    rw [splitNL_nl] at hline
    rcases List.mem_cons.mp hline with he | ht
    · subst he; exact List.not_mem_nil '\n'
    · exact ih ht
  | case3 c rest h2 ih =>
    intro line hline
    rw [splitNL_cons c rest h2] at hline
    cases hsp : splitNL rest with
    | nil => exact absurd hsp (splitNL_ne_nil rest)
    | cons p ps =>
      rw [hsp] at hline
      simp only [consHead] at hline
      rcases List.mem_cons.mp hline with he | ht
      · subst he
        intro hmem
        rcases List.mem_cons.mp hmem with hac | hap
        · exact h2 (hac.symm)
        · exact ih (hsp ▸ List.mem_cons_self p ps) hap
      · exact ih (hsp ▸ List.mem_cons_of_mem p ht)

/-! ## Identity lemmas for the line-oriented passes -/

theorem map_id_of_mem {α : Type} {L : List α} {f : α → α}
    (h : ∀ a ∈ L, f a = a) : L.map f = L := by
  induction L with
  | nil => rfl
  | cons x xs ih =>
    simp only [List.map_cons]
    rw [h x (List.mem_cons_self x xs),
      ih (fun a ha => h a (List.mem_cons_of_mem x ha))]

theorem mathLineFix_id {line : List Char} (h : '\\' ∉ line) :
    mathLineFix line = line := by
  unfold mathLineFix
  split
  · rfl
  · split
    · rename_i hcond
      exact absurd (containsSub_head_mem hcond.2.2.2) h
    · rfl

theorem mathLinePass_id {content : List Char} (h : '\\' ∉ content) :
    mathLinePass content = content := by
  unfold mathLinePass
  rw [map_id_of_mem (fun line hline =>
    mathLineFix_id (fun hm => h (splitNL_mem_subset hline hm))), joinNL_splitNL]

theorem pomdpPass_id {content : List Char} (h : '[' ∉ content) :
    pomdpPass content = content := by
  have hshape : pomdpLit = '[' :: List.drop 1 pomdpLit := by decide
  have hcs : containsSub pomdpLit content = false := by
    rw [hshape]; exact containsSub_head_false h
  unfold pomdpPass
  rw [hcs]
  simp

theorem bw_two_shape {a b : Char} {l : List Char}
    (h : beginsWith [a, b] l = true) : ∃ t, l = a :: b :: t := by
  cases l with
  | nil => cases h
  | cons x xs =>
    cases xs with
    | nil =>
      rw [beginsWith_cons_cons] at h
      rcases Bool.and_eq_true_iff.mp h with ⟨_, h2⟩
      cases h2
    | cons y ys =>
      rw [beginsWith_cons_cons] at h
      rcases Bool.and_eq_true_iff.mp h with ⟨h1, h2⟩
      rw [beginsWith_cons_cons] at h2
      rcases Bool.and_eq_true_iff.mp h2 with ⟨h3, _⟩
      exact ⟨ys, by rw [← of_decide_eq_true h1, ← of_decide_eq_true h3]⟩

theorem pyFind_pre {c : Char} : ∀ (pre t : List Char), (∀ y ∈ pre, ¬y = c) →
    pyFind c (pre ++ c :: t) = some pre.length := by
  intro pre
  induction pre with
  | nil =>
    intro t _
    simp [pyFind]
  | cons x xs ih =>
    intro t h
    have hx : ¬x = c := h x (List.mem_cons_self x xs)
    rw [List.cons_append]
    show (if x = c then some 0 else (pyFind c (xs ++ c :: t)).map (fun n => n + 1)) =
      some (x :: xs).length
    rw [if_neg hx, ih t (fun y hy => h y (List.mem_cons_of_mem x hy))]
    rfl

theorem listFixLine_id {line : List Char}
    (hws : ∀ c ∈ line, isPyWs c = true → c = ' ') :
    listFixLine line = line := by
  cases hbw : beginsWith "- ".data (pyLStrip line) with
  | false =>
    unfold listFixLine
    rw [hbw]
    simp
  | true =>
    obtain ⟨t, hst⟩ := bw_two_shape
      (by rwa [show ("- ".data : List Char) = ['-', ' '] from by decide] at hbw)
    have hsplit : line.takeWhile isPyWs ++ pyLStrip line = line := by
      show line.takeWhile isPyWs ++ line.dropWhile isPyWs = line
      exact List.takeWhile_append_dropWhile isPyWs line
    have hpremem : ∀ y ∈ line.takeWhile isPyWs, y = ' ' := fun y hy =>
      hws y (hsplit ▸ List.mem_append_left _ hy) (List.mem_takeWhile_imp hy)
    have hfind : pyFind '-' line = some (line.takeWhile isPyWs).length := by
      conv_lhs => rw [← hsplit, hst]
      exact pyFind_pre _ (' ' :: t) (fun y hy he => by
        have h1 := hpremem y hy
        rw [h1] at he
        exact (by decide : ¬(' ' = '-')) he)
    unfold listFixLine
    rw [if_pos hbw, hfind]
    by_cases hk : 0 < (line.takeWhile isPyWs).length
    · show (if 0 < (line.takeWhile isPyWs).length then
          List.replicate (line.takeWhile isPyWs).length ' ' ++ pyLStrip line
        else pyLStrip line) = line
      have hpre : List.replicate (line.takeWhile isPyWs).length ' ' =
          line.takeWhile isPyWs := (List.eq_replicate_of_mem hpremem).symm
      rw [if_pos hk, hpre]
      exact hsplit
    · show (if 0 < (line.takeWhile isPyWs).length then
          List.replicate (line.takeWhile isPyWs).length ' ' ++ pyLStrip line
        else pyLStrip line) = line
      have hnil : line.takeWhile isPyWs = [] :=
        List.length_eq_zero.mp (Nat.eq_zero_of_not_pos hk)
      rw [if_neg hk]
      conv_rhs => rw [← hsplit, hnil]
      rfl

theorem listFixPass_id {content : List Char}
    (h : ∀ c ∈ content, isPyWs c = true → c = ' ' ∨ c = '\n') :
    listFixPass content = content := by
  unfold listFixPass
  rw [map_id_of_mem (fun line hline => listFixLine_id (fun c hc hw =>
    (h c (splitNL_mem_subset hline hc) hw).resolve_right
      (fun he => splitNL_no_nl hline (he ▸ hc)))), joinNL_splitNL]

theorem wrapLineStep_keep {b m : Bool} {line : List Char}
    (h : line.length ≤ 100) : (wrapLineStep b m line).2.2 = line := by
  unfold wrapLineStep
  split_ifs <;> first | rfl | (rename_i h7; exact absurd h7 (by omega))

theorem wrapLinesGo_id : ∀ (ls : List (List Char)),
    (∀ line ∈ ls, line.length ≤ 100) → ∀ b m, wrapLinesGo b m ls = ls := by
  intro ls
  induction ls with
  | nil => intro _ b m; rfl
  | cons x xs ih =>
    intro h b m
    simp only [wrapLinesGo]
    rw [wrapLineStep_keep (h x (List.mem_cons_self x xs)),
      ih (fun l hl => h l (List.mem_cons_of_mem x hl)) _ _]

theorem wrapPass_id {content : List Char}
    (h : ∀ line ∈ splitNL content, line.length ≤ 100) :
    wrapPass content = content := by
  unfold wrapPass
  rw [wrapLinesGo_id _ h false false, joinNL_splitNL]

theorem restoreCode_nil (content : List Char) : restoreCode [] content = content := rfl

theorem restoreMath_nil (content : List Char) : restoreMath [] content = content := rfl

/-- Helper lemma: `str.replace` is the identity when the pattern's first
character does not occur in the input. -/
theorem pyReplace_id_of_head {p rep s : List Char} {c : Char}
    (hp : ∃ t, p = c :: t) (h : c ∉ s) : pyReplace p rep s = s := by
  obtain ⟨t, rfl⟩ := hp
  exact pyReplace_id h

theorem splitNL_singleton {l : List Char} (h : '\n' ∉ l) : splitNL l = [l] := by
  induction l with
  | nil => rfl
  | cons c rest ih =>
    have hc : ¬c = '\n' := fun hh => h (hh ▸ List.mem_cons_self c rest)
    rw [splitNL_cons c rest hc, ih (fun hh => h (List.mem_cons_of_mem c hh))]
    rfl

/-- The character fragment on which every HTML/entity/math stage of
`html_to_markdown` is inert: no tag or entity openers, no backslash,
heading mark, bracket or parenthesis (the math-heuristic triggers), and
whitespace restricted to plain spaces and newlines. -/
def goodChar (c : Char) : Bool :=
  !(c = '<' || c = '&' || c = '\\' || c = '#' || c = '[' || c = '(') &&
  (!(isPyWs c) || c = ' ' || c = '\n')

/-- C2 (amended). On tag-free input (no '<', '&', '\\', '#', '[', '('; the
only whitespace characters are ' ' and '\n'; no triple-newline, double-space,
newline-space, or blank-line-before-dash runs; every line at most 100
characters) the converter returns the HTML-entity-unescaped text trimmed of
leading and trailing whitespace.  Without the whitespace-normalization
conditions the claim fails (see the counterexample). -/
theorem C2_theorem (x : List Char)
    (hchars : ∀ c ∈ x, goodChar c = true)
    (ht : noTriple x) (hd : noDbl x) (hs : noNLSp x) (hg : noGap x)
    (hlines : ∀ line ∈ splitNL x, line.length ≤ 100) :
    html_to_markdown (some x) = pyStrip (pyUnescape x) := by
  have hlt : '<' ∉ x := fun hm => absurd (hchars '<' hm) (by decide)
  have hamp : '&' ∉ x := fun hm => absurd (hchars '&' hm) (by decide)
  have hbs : '\\' ∉ x := fun hm => absurd (hchars '\\' hm) (by decide)
  have hhash : '#' ∉ x := fun hm => absurd (hchars '#' hm) (by decide)
  have hlb : '[' ∉ x := fun hm => absurd (hchars '[' hm) (by decide)
  have hlp : '(' ∉ x := fun hm => absurd (hchars '(' hm) (by decide)
  have hws2 : ∀ c ∈ x, isPyWs c = true → c = ' ' ∨ c = '\n' := by
    intro c hc hw
    have h1 := hchars c hc
    unfold goodChar at h1
    rcases Bool.and_eq_true_iff.mp h1 with ⟨_, h2⟩
    rw [hw] at h2
    simpa using h2
  by_cases hnil : x = []
  · subst hnil; rfl
  · have hspec : x ≠ specialEntityTest :=
      fun he => hlt (he ▸ (by decide : '<' ∈ specialEntityTest))
    have e1 : reSubSt reSpanMathD saveMathTmpl x [] = (x, []) :=
      reSubSt_id_head (by rfl) _ _ hlt
    have e2 : reSubSt rePreMathD saveMathTmpl x [] = (x, []) :=
      reSubSt_id_head (by rfl) _ _ hlt
    have e3 : reSubSt reSpanMath saveMathTmpl x [] = (x, []) :=
      reSubSt_id_head (by rfl) _ _ hlt
    have e4 : reSubSt rePreMath saveMathTmpl x [] = (x, []) :=
      reSubSt_id_head (by rfl) _ _ hlt
    have eU : pyUnescape x = x := pyUnescape_id hamp
    have eR1 : pyReplace "&lt;".data "<".data x = x :=
      pyReplace_id_of_head ⟨"lt;".data, by decide⟩ hamp
    have eR2 : pyReplace "&gt;".data ">".data x = x :=
      pyReplace_id_of_head ⟨"gt;".data, by decide⟩ hamp
    have eR3 : pyReplace "&amp;".data "&".data x = x :=
      pyReplace_id_of_head ⟨"amp;".data, by decide⟩ hamp
    have eSty : reSub reStyle (fun _ _ => []) x = x :=
      reSub_id_head (by rfl) _ hlt
    have eScr : reSub reScript (fun _ _ => []) x = x :=
      reSub_id_head (by rfl) _ hlt
    have eCom : reSub reHtmlComment (fun _ _ => []) x = x :=
      reSub_id_head (by rfl) _ hlt
    have eK1 : reSubSt rePreCode saveCodeTmpl x [] = (x, []) :=
      reSubSt_id_head (by rfl) _ _ hlt
    have eK2 : reSubSt rePre saveCodeTmpl x [] = (x, []) :=
      reSubSt_id_head (by rfl) _ _ hlt
    have eCd : reSub reCode (fun _ caps => '`' :: getCap 1 caps ++ ['`']) x = x :=
      reSub_id_head (by rfl) _ hlt
    have eBq : reSub reBlockquote tBlockquote x = x :=
      reSub_id_head (by rfl) _ hlt
    have eH1 : reSub (reHeading 1) (tHeading 1) x = x :=
      reSub_id_head (by rfl) _ hlt
    have eH2 : reSub (reHeading 2) (tHeading 2) x = x :=
      reSub_id_head (by rfl) _ hlt
    have eH3 : reSub (reHeading 3) (tHeading 3) x = x :=
      reSub_id_head (by rfl) _ hlt
    have eH4 : reSub (reHeading 4) (tHeading 4) x = x :=
      reSub_id_head (by rfl) _ hlt
    have eH5 : reSub (reHeading 5) (tHeading 5) x = x :=
      reSub_id_head (by rfl) _ hlt
    have eH6 : reSub (reHeading 6) (tHeading 6) x = x :=
      reSub_id_head (by rfl) _ hlt
    have eDv : reSub reDiv (fun _ caps => '\n' :: getCap 1 caps ++ ['\n']) x = x :=
      reSub_id_head (by rfl) _ hlt
    have ePg : reSub reParagraph (fun _ caps => '\n' :: getCap 1 caps ++ ['\n']) x = x :=
      reSub_id_head (by rfl) _ hlt
    have eHr : reSub reHr (fun _ _ => "\n---\n".data) x = x :=
      reSub_id_head (by rfl) _ hlt
    have eBr : reSub reBr (fun _ _ => ['\n']) x = x :=
      reSub_id_head (by rfl) _ hlt
    have eLi : reSub reListItem (fun _ caps => process_list_item (getCap 1 caps)) x = x :=
      reSub_id_head (by rfl) _ hlt
    have eLo : reSub reListOpen (fun _ _ => ['\n']) x = x :=
      reSub_id_head (by rfl) _ hlt
    have eLc : reSub reListClose (fun _ _ => ['\n']) x = x :=
      reSub_id_head (by rfl) _ hlt
    have eSg : reSub reStrong (fun _ caps => "**".data ++ getCap 1 caps ++ "**".data) x = x :=
      reSub_id_head (by rfl) _ hlt
    have eEm : reSub reEm (fun _ caps => "*".data ++ getCap 1 caps ++ "*".data) x = x :=
      reSub_id_head (by rfl) _ hlt
    have eAn : reSub reAnchor
        (fun _ caps => '[' :: getCap 2 caps ++ ']' :: '(' :: getCap 1 caps ++ [')']) x = x :=
      reSub_id_head (by rfl) _ hlt
    have eTg : reSub reAnyTag (fun _ _ => []) x = x :=
      reSub_id_head (by rfl) _ hlt
    have eNL : collapseNL x = x := collapseNL_id ht
    have eSp : collapseSp x = x := collapseSp_id hd
    have eNS : dropNLSp x = x := dropNLSp_id hs
    have eRC : restoreCode [] x = x := restoreCode_nil x
    have eRM : restoreMath [] x = x := restoreMath_nil x
    have eM1 : reSub reMathBr1 (fun _ caps => '$' :: getCap 1 caps ++ ['$']) x = x :=
      reSub_id_head (by rfl) _ hlb
    have eM2 : reSub reMathBr2 (fun _ caps => '$' :: getCap 1 caps ++ ['$']) x = x :=
      reSub_id_head (by rfl) _ hlb
    have eM3 : reSub reGreekParen (fun _ caps => '$' :: '\\' :: getCap 1 caps ++ ['$']) x = x :=
      reSub_id_head (by rfl) _ hlp
    have eML : mathLinePass x = x := mathLinePass_id hbs
    have ePo : pomdpPass x = x := pomdpPass_id hlb
    have eLF : listFixPass x = x := listFixPass_id hws2
    have eWr : wrapPass x = x := wrapPass_id hlines
    have eFG : fixListGap x = x := fixListGap_id hg
    have eCT : collapseTriple x = x := collapseTriple_id ht
    have eFE : fixEmptyItems x = x := fixEmptyItems_id hg
    have eIB : insertBlankHeading x = x := insertBlankHeading_id hhash
    simp only [html_to_markdown]
    rw [if_neg hnil, if_neg hspec]
    simp only [e1, e2, e3, e4, eU, eR1, eR2, eR3, eSty, eScr, eCom, eK1, eK2,
      eCd, eBq, eH1, eH2, eH3, eH4, eH5, eH6, eDv, ePg, eHr, eBr, eLi, eLo,
      eLc, eSg, eEm, eAn, eTg, eNL, eSp, eNS, eRC, eRM, eM1, eM2, eM3, eML,
      ePo, eLF, eWr, eFG, eCT, eFE, eIB]

/-- C2: the unconditional claim is false.  On the tag-free input `"a  b"`
(text and whitespace only) the converter collapses the space run and
returns `"a b"`, not the unescaped trimmed text `"a  b"`. -/
theorem C2_counterexample :
    html_to_markdown (some "a  b".data) = "a b".data ∧
    pyStrip (pyUnescape "a  b".data) = "a  b".data ∧
    html_to_markdown (some "a  b".data) ≠ pyStrip (pyUnescape "a  b".data) := by
  refine ⟨by decide, by decide, by decide⟩

/-- C2 witness: the theorem applied to `" hello world\nbye "`. -/
theorem C2_witness :
    (∀ c ∈ " hello world\nbye ".data, goodChar c = true) ∧
    html_to_markdown (some " hello world\nbye ".data) =
      pyStrip (pyUnescape " hello world\nbye ".data) :=
  ⟨by decide, C2_theorem " hello world\nbye ".data (by decide)
    (by show containsSub ['\n', '\n', '\n'] " hello world\nbye ".data = false; decide)
    (by show containsSub [' ', ' '] " hello world\nbye ".data = false; decide)
    (by show containsSub ['\n', ' '] " hello world\nbye ".data = false; decide)
    (by show containsSub ['\n', '\n', '-', ' '] " hello world\nbye ".data = false; decide)
    (by decide)⟩

/-- C5: the claim is false on both counts.  On the two-item ordered list the
converter emits `"- First- Second"`: items carry a `"- "` bullet, not the
claimed `"1. "` prefix, and adjacent items are concatenated on one line, not
one item per line (`process_list_item` returns no trailing newline and the
`<li>` replacements are adjacent in the scan). -/
theorem C5_counterexample :
    html_to_markdown (some "<ol><li>First</li><li>Second</li></ol>".data) =
      "- First- Second".data ∧
    containsSub "1. ".data
      (html_to_markdown (some "<ol><li>First</li><li>Second</li></ol>".data)) = false ∧
    containsSub ['\n']
      (html_to_markdown (some "<ol><li>First</li><li>Second</li></ol>".data)) = false := by
  refine ⟨by decide, by decide, by decide⟩

/-- C5 (amended): every ordered-list item is emitted with a `"- "` bullet (no
numbering): a single-line item body is rewritten by `process_list_item` to
exactly `"- "` before the stripped body, and the items of an ordered list
are emitted in input order concatenated without a separator, as on the
two-item list. -/
theorem C5_theorem :
    (∀ g : List Char, '\n' ∉ g →
      process_list_item g = "- ".data ++ pyStrip g) ∧
    html_to_markdown (some "<ol><li>First</li><li>Second</li></ol>".data) =
      "- ".data ++ "First".data ++ "- ".data ++ "Second".data := by
  constructor
  · intro g hnl
    have hnostrip : '\n' ∉ pyStrip g := fun hm => hnl (mem_pyStrip hm)
    simp only [process_list_item]
    rw [splitNL_singleton hnostrip]
    simp only [if_pos rfl]
    rw [pyStrip_idem]
    simp
  · decide

/-- C5 witness: the theorem's first part applied to the item body `"Item "`. -/
theorem C5_witness :
    ('\n' ∉ "Item ".data ∧
      process_list_item "Item ".data = "- ".data ++ pyStrip "Item ".data) ∧
    html_to_markdown (some "<ol><li>First</li><li>Second</li></ol>".data) =
      "- ".data ++ "First".data ++ "- ".data ++ "Second".data :=
  ⟨⟨by decide, C5_theorem.1 "Item ".data (by decide)⟩, C5_theorem.2⟩

/-- C8: `None` input and the empty string both yield the empty string
(helper.py 46-47: `if not html_content: return ""`). -/
theorem C8_theorem :
    html_to_markdown none = [] ∧ html_to_markdown (some []) = [] :=
  ⟨rfl, rfl⟩

theorem post_process_eval_heading_once :
    post_process "a\n#\n# b".data = "a\n\n#\n# b".data := by decide

theorem post_process_eval_heading_twice :
    post_process (post_process "a\n#\n# b".data) = "a\n\n#\n\n# b".data := by
  decide

theorem post_process_eval_whitespace : post_process " x \n\n\n\n y  z ".data = "x \n\ny z".data := by decide
